import Mathlib

/-!
Verification of the lospeak signaling relay, client connection orchestrator,
screen-share overlay and VAD-gated noise-suppression pipeline.

The definitions below are shallow embeddings of the TypeScript source:
audio samples and voice-probability scores are modelled as rationals,
JavaScript strings as lists of characters, the PartyKit relay and the
client orchestrator as explicit state machines driven by event lists, and
the nondeterministic inputs of the code (Math.random indices, Date.now,
WASM denoiser output, capability probes) as oracle parameters.
-/

/- ===================================================================
   Section 1: VAD-gated noise suppression pipeline
   (src/lib/vad-noise.ts processAudio, and the worklet source in
   VadNoiseProcessor.process)
   =================================================================== -/

/-- RNNoise native frame size (RNNOISE_SAMPLE_LENGTH in the source). -/
def rnnoiseSampleLength : Nat := 480

/-- Number of frames the voice state is held after VAD drops
(HOLD_FRAMES in the source). -/
def holdFramesDefault : Nat := 10

/-- The mutable VAD gating state of the processor:
voiceHoldCounter and isVoiceActive. -/
structure GateState where
  voiceHoldCounter : Nat
  isVoiceActive : Bool
deriving DecidableEq, Repr

/-- One gating decision, translating the three-way branch of the source:
if vadScore is at least the threshold, mark voice active and arm the hold
counter; else if the hold counter is positive, decrement it (leaving the
active flag untouched); else clear the active flag. -/
def vadGateStep (vadThreshold : ℚ) (holdFrames : Nat) (s : GateState)
    (vadScore : ℚ) : GateState :=
  if vadThreshold ≤ vadScore then
    { voiceHoldCounter := holdFrames, isVoiceActive := true }
  else if 0 < s.voiceHoldCounter then
    { s with voiceHoldCounter := s.voiceHoldCounter - 1 }
  else
    { s with isVoiceActive := false }

/-- Process one denoised frame: run the gating decision on its score and
emit either the denoised samples or an all-zero frame of the same length,
exactly as the output-write loop of the source does. -/
def vadGateFrame (vadThreshold : ℚ) (holdFrames : Nat) (s : GateState)
    (denoised : List ℚ) (vadScore : ℚ) : GateState × List ℚ :=
  let s' := vadGateStep vadThreshold holdFrames s vadScore
  (s', if s'.isVoiceActive then denoised else denoised.map (fun _ => 0))

/-- Run the gate over a sequence of (denoised frame, score) pairs,
collecting the emitted frames. -/
def vadGateRun (vadThreshold : ℚ) (holdFrames : Nat) :
    GateState → List (List ℚ × ℚ) → GateState × List (List ℚ)
  | s, [] => (s, [])
  | s, f :: rest =>
    let p := vadGateFrame vadThreshold holdFrames s f.1 f.2
    let q := vadGateRun vadThreshold holdFrames p.1 rest
    (q.1, p.2 :: q.2)

/-- Available sample count of a circular buffer
(getAvailable in the source). -/
def getAvailable (writeIdx readIdx bufferLen : Nat) : Nat :=
  if readIdx ≤ writeIdx then writeIdx - readIdx
  else bufferLen - readIdx + writeIdx

/-- Full state of the stream processor: configuration, the two circular
buffers with their indices, and the gating state. -/
structure ProcState where
  vadThreshold : ℚ
  holdFrames : Nat
  inputBuffer : List ℚ
  outputBuffer : List ℚ
  inputWriteIdx : Nat
  inputReadIdx : Nat
  outputWriteIdx : Nat
  outputReadIdx : Nat
  voiceHoldCounter : Nat
  isVoiceActive : Bool

/-- Write samples one by one into a circular buffer, advancing the write
index modulo the buffer length. -/
def writeSamples : List ℚ → List ℚ → Nat → List ℚ × Nat
  | buf, [], w => (buf, w)
  | buf, x :: rest, w => writeSamples (buf.set w x) rest ((w + 1) % buf.length)

/-- Extract one RNNoise frame from the input circular buffer starting at
the read index. -/
def extractFrame (buf : List ℚ) (readIdx : Nat) : List ℚ :=
  (List.range rnnoiseSampleLength).map (fun i => buf.getD ((readIdx + i) % buf.length) 0)

/-- Process one complete frame: extract it, hand it to the denoiser oracle
(which returns the denoised samples and the VAD score), apply the gating
decision and write the gated frame to the output circular buffer. -/
def processOneFrame (rnn : List ℚ → List ℚ × ℚ) (st : ProcState) : ProcState :=
  let frame := extractFrame st.inputBuffer st.inputReadIdx
  let inputReadIdx' := (st.inputReadIdx + rnnoiseSampleLength) % st.inputBuffer.length
  let den := (rnn frame).1
  let score := (rnn frame).2
  let g := vadGateStep st.vadThreshold st.holdFrames
    ⟨st.voiceHoldCounter, st.isVoiceActive⟩ score
  let emitted := (List.range rnnoiseSampleLength).map
    (fun i => if g.isVoiceActive then den.getD i 0 else 0)
  let ow := writeSamples st.outputBuffer emitted st.outputWriteIdx
  { st with
    inputReadIdx := inputReadIdx'
    outputBuffer := ow.1
    outputWriteIdx := ow.2
    voiceHoldCounter := g.voiceHoldCounter
    isVoiceActive := g.isVoiceActive }

/-- The frame-processing while loop: as long as a full frame is available
in the input circular buffer, process it.  The fuel argument bounds the
iteration count; the available count is below the buffer length, so any
fuel of at least the buffer length reaches the fixed point. -/
def processLoop (rnn : List ℚ → List ℚ × ℚ) : ProcState → Nat → ProcState
  | st, 0 => st
  | st, fuel + 1 =>
    if rnnoiseSampleLength ≤
        getAvailable st.inputWriteIdx st.inputReadIdx st.inputBuffer.length then
      processLoop rnn (processOneFrame rnn st) fuel
    else st

/-- Available processed samples of the output circular buffer. -/
def outAvailable (st : ProcState) : Nat :=
  getAvailable st.outputWriteIdx st.outputReadIdx st.outputBuffer.length

/-- The FIFO contents of the output circular buffer, oldest first. -/
def outContents (st : ProcState) : List ℚ :=
  (List.range (outAvailable st)).map
    (fun i => st.outputBuffer.getD ((st.outputReadIdx + i) % st.outputBuffer.length) 0)

/-- The block-emission stage of the processing callback: if the output
circular buffer holds at least a full host block, fill the block from the
buffer in FIFO order and advance the read index; otherwise emit an
all-zero block and leave the buffer untouched. -/
def readOutputBlock (st : ProcState) (blockLen : Nat) : ProcState × List ℚ :=
  if blockLen ≤ outAvailable st then
    ({ st with outputReadIdx := (st.outputReadIdx + blockLen) % st.outputBuffer.length },
     (List.range blockLen).map
       (fun i => st.outputBuffer.getD ((st.outputReadIdx + i) % st.outputBuffer.length) 0))
  else
    (st, List.replicate blockLen 0)

/-- One invocation of the audio-processing callback: buffer the incoming
host block, process all complete RNNoise frames, then emit one host block
from the output circular buffer. -/
def processAudio (rnn : List ℚ → List ℚ × ℚ) (st : ProcState) (input : List ℚ) :
    ProcState × List ℚ :=
  let iw := writeSamples st.inputBuffer input st.inputWriteIdx
  let st1 := { st with inputBuffer := iw.1, inputWriteIdx := iw.2 }
  let st2 := processLoop rnn st1 st1.inputBuffer.length
  readOutputBlock st2 input.length

/-- The freshly initialized worklet processor state: circular buffers of
four RNNoise frames, all indices zero, hold counter zero, voice inactive,
default threshold 0.85 and hold of 10 frames. -/
def initProcState : ProcState :=
  { vadThreshold := 85 / 100
    holdFrames := holdFramesDefault
    inputBuffer := List.replicate (rnnoiseSampleLength * 4) 0
    outputBuffer := List.replicate (rnnoiseSampleLength * 4) 0
    inputWriteIdx := 0
    inputReadIdx := 0
    outputWriteIdx := 0
    outputReadIdx := 0
    voiceHoldCounter := 0
    isVoiceActive := false }

/- ===================================================================
   Threshold setter and the threshold-drag UI path
   (setVadThreshold in src/lib/vad-noise.ts, handleThresholdDrag in the
   room page component)
   =================================================================== -/

/-- The stored threshold after a call to setVadThreshold: the source
clamps the argument with Math.max(0, Math.min(1, threshold)). -/
def setVadThreshold (threshold : ℚ) : ℚ :=
  max 0 (min 1 threshold)

/-- The percentage computed by the threshold-drag handler from the pointer
position and the meter width, clamped to the interval from 0.5 to 0.98
before being handed to setVadThreshold. -/
def handleThresholdDragPercent (x width : ℚ) : ℚ :=
  max (1 / 2) (min (98 / 100) (x / width))

/- ===================================================================
   Lemmas and claim theorems for the VAD pipeline
   =================================================================== -/

/-- If every frame of a run scores below the threshold, then every output
frame from position voiceHoldCounter onwards is all zeros. -/
theorem vadGateRun_allLow (t : ℚ) (hF : Nat) :
    ∀ (frames : List (List ℚ × ℚ)) (s : GateState),
      (∀ p ∈ frames, p.2 < t) → ∀ i, s.voiceHoldCounter ≤ i → i < frames.length →
        (vadGateRun t hF s frames).2.getD i [] =
          (frames.getD i ([], 0)).1.map (fun _ => 0) := by
  intro frames
  induction frames with
  | nil => intro s _ i _ hlt; simp at hlt
  | cons f rest ih =>
    intro s hlow i hle hlt
    have hf : f.2 < t := hlow f (List.mem_cons_self f rest)
    have hnot : ¬ t ≤ f.2 := not_le.mpr hf
    have hrest : ∀ p ∈ rest, p.2 < t := fun p hp => hlow p (List.mem_cons_of_mem f hp)
    match i with
    | 0 =>
      have h0 : s.voiceHoldCounter = 0 := Nat.le_zero.mp hle
      simp [vadGateRun, vadGateFrame, vadGateStep, hnot, h0]
    | i + 1 =>
      have hstep : (vadGateStep t hF s f.2).voiceHoldCounter ≤ i := by
        simp only [vadGateStep, if_neg hnot]
        by_cases hc : 0 < s.voiceHoldCounter
        · simp only [if_pos hc]
          omega
        · simp only [if_neg hc]
          omega
      have := ih (vadGateStep t hF s f.2) hrest i hstep (by simpa using hlt)
      simpa [vadGateRun, vadGateFrame] using this

/-- C2: per-frame VAD gating and hysteresis.  A frame scoring at or above
the threshold makes voice active and arms the hold counter at 10; a frame
below threshold with a nonzero counter decrements the counter and leaves
the active flag untouched (hence active stays true); a frame below
threshold with the counter exhausted makes voice inactive.  The emitted
frame equals the denoised samples exactly when voice is active after the
decision and is all zeros when inactive; the hold counter never exceeds
10; and after a run of below-threshold frames, every output frame from
position 10 onwards is exactly zero whenever the starting counter is at
most 10. -/
theorem vad_gate_correct (t : ℚ) (s : GateState) (score : ℚ) (den : List ℚ)
    (frames : List (List ℚ × ℚ)) :
    (t ≤ score → vadGateStep t 10 s score = ⟨10, true⟩)
    ∧ (score < t → 0 < s.voiceHoldCounter →
        vadGateStep t 10 s score = ⟨s.voiceHoldCounter - 1, s.isVoiceActive⟩)
    ∧ (score < t → 0 < s.voiceHoldCounter → s.isVoiceActive = true →
        (vadGateStep t 10 s score).isVoiceActive = true)
    ∧ (score < t → s.voiceHoldCounter = 0 →
        vadGateStep t 10 s score = ⟨0, false⟩)
    ∧ ((vadGateStep t 10 s score).isVoiceActive = true →
        (vadGateFrame t 10 s den score).2 = den)
    ∧ ((vadGateStep t 10 s score).isVoiceActive = false →
        (vadGateFrame t 10 s den score).2 = den.map (fun _ => 0))
    ∧ (t ≤ score → (vadGateFrame t 10 s den score).2 = den)
    ∧ (s.voiceHoldCounter ≤ 10 → (vadGateStep t 10 s score).voiceHoldCounter ≤ 10)
    ∧ (s.voiceHoldCounter ≤ 10 → (∀ p ∈ frames, p.2 < t) →
        ∀ i, 10 ≤ i → i < frames.length →
          (vadGateRun t 10 s frames).2.getD i [] =
            (frames.getD i ([], 0)).1.map (fun _ => 0)) := by
  refine ⟨?_, ?_, ?_, ?_, ?_, ?_, ?_, ?_, ?_⟩
  · intro h; simp [vadGateStep, h]
  · intro h hc
    have hnot : ¬ t ≤ score := not_le.mpr h
    simp [vadGateStep, hnot, hc]
  · intro h hc ha
    have hnot : ¬ t ≤ score := not_le.mpr h
    simp [vadGateStep, hnot, hc, ha]
  · intro h hc
    have hnot : ¬ t ≤ score := not_le.mpr h
    simp [vadGateStep, hnot, hc]
  · intro h; simp [vadGateFrame, h]
  · intro h; simp [vadGateFrame, h]
  · intro h; simp [vadGateFrame, vadGateStep, h]
  · intro h
    simp only [vadGateStep]
    by_cases h1 : t ≤ score
    · simp [h1]
    · simp only [if_neg h1]
      by_cases hc : 0 < s.voiceHoldCounter
      · simp only [if_pos hc]; omega
      · simp only [if_neg hc]; omega
  · intro hle hlow i h10 hlt
    exact vadGateRun_allLow t 10 frames s hlow i (le_trans hle h10) hlt

/-- Witness for vad_gate_correct: concrete instantiations discharging each
hypothesis. -/
theorem vad_gate_correct_witness :
    (vadGateStep (85/100) 10 ⟨0, false⟩ (9/10) = ⟨10, true⟩)
    ∧ (vadGateStep (85/100) 10 ⟨4, true⟩ (1/10) = ⟨3, true⟩)
    ∧ (vadGateStep (85/100) 10 ⟨0, false⟩ (1/10) = ⟨0, false⟩)
    ∧ ((vadGateFrame (85/100) 10 ⟨0, false⟩ [1, 2] (9/10)).2 = [1, 2])
    ∧ ((vadGateFrame (85/100) 10 ⟨0, false⟩ [1, 2] (1/10)).2 = [0, 0])
    ∧ ((vadGateRun (85/100) 10 ⟨10, true⟩
          (List.replicate 12 ([(1 : ℚ), 2], (1/10 : ℚ)))).2.getD 11 [] = [0, 0]) := by
  have h1 := (vad_gate_correct (85/100) ⟨0, false⟩ (9/10) [1, 2] []).1 (by norm_num)
  have h2 := (vad_gate_correct (85/100) ⟨4, true⟩ (1/10) [1, 2] []).2.1 (by norm_num)
    (by norm_num)
  have h3 := (vad_gate_correct (85/100) ⟨0, false⟩ (1/10) [1, 2] []).2.2.2.1 (by norm_num)
    rfl
  have h4 := (vad_gate_correct (85/100) ⟨0, false⟩ (9/10) [(1 : ℚ), 2] []).2.2.2.2.2.2.1
    (by norm_num)
  have h5 := (vad_gate_correct (85/100) ⟨0, false⟩ (1/10) [(1 : ℚ), 2] []).2.2.2.2.2.1
    (by simp [vadGateStep]; norm_num)
  have h6 := (vad_gate_correct (85/100) ⟨10, true⟩ (0 : ℚ) []
      (List.replicate 12 ([(1 : ℚ), 2], (1/10 : ℚ)))).2.2.2.2.2.2.2.2
    (by norm_num) (by intro p hp; simp at hp; rw [hp]; norm_num) 11 (by norm_num)
    (by simp)
  refine ⟨h1, by simpa using h2, h3, h4, by simpa using h5, by simpa using h6⟩

/-- Writing samples into a circular buffer preserves its length. -/
theorem writeSamples_fst_length :
    ∀ (input buf : List ℚ) (w : Nat),
      (writeSamples buf input w).1.length = buf.length := by
  intro input
  induction input with
  | nil => intro buf w; rfl
  | cons x rest ih =>
    intro buf w
    show (writeSamples (buf.set w x) rest ((w + 1) % buf.length)).1.length = buf.length
    rw [ih]
    exact List.length_set buf w x

/-- Writing a nonempty sample list advances the write index to the old
index plus the sample count, modulo the buffer length. -/
theorem writeSamples_snd :
    ∀ (input buf : List ℚ) (w : Nat), input ≠ [] →
      (writeSamples buf input w).2 = (w + input.length) % buf.length := by
  intro input
  induction input with
  | nil => intro buf w h; exact absurd rfl h
  | cons x rest ih =>
    intro buf w _
    show (writeSamples (buf.set w x) rest ((w + 1) % buf.length)).2 = _
    match rest with
    | [] => simp [writeSamples, List.length_set]
    | y :: rest2 =>
      rw [ih (buf.set w x) ((w + 1) % buf.length) (by simp), List.length_set,
        Nat.mod_add_mod]
      congr 1
      simp only [List.length_cons]
      omega

/-- If no full frame is available, the processing loop is the identity. -/
theorem processLoop_noFrame (rnn : List ℚ → List ℚ × ℚ) (st : ProcState)
    (h : getAvailable st.inputWriteIdx st.inputReadIdx st.inputBuffer.length <
      rnnoiseSampleLength) :
    ∀ fuel, processLoop rnn st fuel = st
  | 0 => rfl
  | fuel + 1 => by simp [processLoop, not_le.mpr h]

/-- If fewer processed samples than a block are available, the emitted
block is all zeros. -/
theorem readOutputBlock_small (st : ProcState) (n : Nat) (h : outAvailable st < n) :
    (readOutputBlock st n).2 = List.replicate n 0 := by
  simp [readOutputBlock, not_le.mpr h]

/-- From a state whose indices are all zero, a host block shorter than one
RNNoise frame (and shorter than the input buffer) yields an all-zero
emitted block: nothing has been processed yet. -/
theorem processAudio_small (rnn : List ℚ → List ℚ × ℚ) (st : ProcState)
    (input : List ℚ)
    (hw : st.inputWriteIdx = 0) (hr : st.inputReadIdx = 0)
    (hor : st.outputReadIdx = 0) (how : st.outputWriteIdx = 0)
    (hlen : input.length < rnnoiseSampleLength) (hne : input ≠ [])
    (hbuf : input.length < st.inputBuffer.length) :
    (processAudio rnn st input).2 = List.replicate input.length 0 := by
  obtain ⟨t, hF, ib, ob, iw, ir, ow, orr, vc, va⟩ := st
  simp only at hw hr hor how hbuf
  subst hw hr hor how
  show (readOutputBlock
      (processLoop rnn
        ⟨t, hF, (writeSamples ib input 0).1, ob, (writeSamples ib input 0).2,
          0, 0, 0, vc, va⟩
        (writeSamples ib input 0).1.length)
      input.length).2 = List.replicate input.length 0
  rw [processLoop_noFrame, readOutputBlock_small]
  · show getAvailable 0 0 ob.length < input.length
    have hpos : 0 < input.length := List.length_pos.mpr hne
    have h0 : getAvailable 0 0 ob.length = 0 := by simp [getAvailable]
    rw [h0]
    exact hpos
  · show getAvailable (writeSamples ib input 0).2 0
        (writeSamples ib input 0).1.length < rnnoiseSampleLength
    rw [writeSamples_snd _ _ _ hne, writeSamples_fst_length]
    have hmod : (0 + input.length) % ib.length = input.length := by
      rw [Nat.zero_add]
      exact Nat.mod_eq_of_lt hbuf
    rw [hmod]
    have hg : getAvailable input.length 0 ib.length = input.length := by
      simp [getAvailable]
    rw [hg]
    exact hlen

/-- C10: the emitted host block is all-or-nothing.  When the output
circular buffer holds at least one full host block, the block is exactly
the oldest blockLen processed samples in FIFO order; otherwise the whole
block is zeros — a block is never partially filled.  In particular, the
first invocation after start (a 128-sample host block into the freshly
initialized worklet state) emits an all-zero block, whatever the denoiser
returns and whatever the input samples are. -/
theorem output_block_all_or_nothing (st : ProcState) (blockLen : Nat) :
    ((blockLen ≤ outAvailable st ∧
        (readOutputBlock st blockLen).2 = (outContents st).take blockLen)
      ∨ (outAvailable st < blockLen ∧
        (readOutputBlock st blockLen).2 = List.replicate blockLen 0))
    ∧ (∀ (rnn : List ℚ → List ℚ × ℚ) (x : ℚ),
        (processAudio rnn initProcState (List.replicate 128 x)).2 =
          List.replicate 128 0) := by
  constructor
  · by_cases h : blockLen ≤ outAvailable st
    · left
      refine ⟨h, ?_⟩
      simp only [readOutputBlock, if_pos h, outContents]
      rw [← List.map_take, List.take_range, Nat.min_eq_left h]
    · right
      refine ⟨not_le.mp h, ?_⟩
      simp only [readOutputBlock, if_neg h]
  · intro rnn x
    have hib : initProcState.inputBuffer.length = 1920 := by
      show (List.replicate (rnnoiseSampleLength * 4) (0 : ℚ)).length = 1920
      rw [List.length_replicate]
      rfl
    have := processAudio_small rnn initProcState (List.replicate 128 x)
      rfl rfl rfl rfl
      (by rw [List.length_replicate]; norm_num [rnnoiseSampleLength])
      (by simp)
      (by rw [List.length_replicate, hib]; norm_num)
    rwa [List.length_replicate] at this

/-- C6 counterexample: setVadThreshold stores values outside the claimed
interval.  Calling it with 0.1 stores exactly 0.1, which is below 0.5, so
the stored threshold does not lie in the interval from 0.5 to 0.98. -/
theorem setVadThreshold_outside_claimed_range :
    setVadThreshold (1 / 10) = 1 / 10 ∧ ¬ ((1 : ℚ) / 2 ≤ setVadThreshold (1 / 10)) := by
  constructor
  · norm_num [setVadThreshold]
  · norm_num [setVadThreshold]

/-- C6 amended: setVadThreshold clamps its argument to the interval from
0 to 1, and the threshold-drag UI path pre-clamps the dragged value to the
interval from 0.5 to 0.98 before storing it, so every threshold stored
through a drag lies in that interval. -/
theorem setVadThreshold_clamps (t x width : ℚ) :
    (0 ≤ setVadThreshold t ∧ setVadThreshold t ≤ 1)
    ∧ (1 / 2 ≤ setVadThreshold (handleThresholdDragPercent x width)
        ∧ setVadThreshold (handleThresholdDragPercent x width) ≤ 98 / 100) := by
  have hlow : (1 : ℚ) / 2 ≤ handleThresholdDragPercent x width := le_max_left _ _
  have hhigh : handleThresholdDragPercent x width ≤ 98 / 100 :=
    max_le (by norm_num) (min_le_left _ _)
  have heq : setVadThreshold (handleThresholdDragPercent x width) =
      handleThresholdDragPercent x width := by
    rw [setVadThreshold, min_eq_right (le_trans hhigh (by norm_num)),
      max_eq_right (le_trans (by norm_num) hlow)]
  refine ⟨⟨le_max_left _ _, ?_⟩, ?_, ?_⟩
  · rw [setVadThreshold]
    rcases le_total 1 t with h | h
    · rw [min_eq_left h]; norm_num
    · rw [min_eq_right h]
      exact max_le (by norm_num) h
  · rw [heq]; exact hlow
  · rw [heq]; exact hhigh

/- ===================================================================
   Section 2: noise-suppression startup fallback chain
   (startNoiseSuppression in src/lib/noise.ts, startVadNoiseSuppression
   in src/lib/vad-noise.ts)
   =================================================================== -/

/-- Capability probes and outcome oracles for the two processing
primitives: whether Insertable Streams and AudioWorklet exist in the
browser, and whether each startup attempt succeeds with a processed track
or throws. -/
structure NoiseEnv where
  insertableStreamsSupported : Bool
  audioWorkletSupported : Bool
  insertableResult : Except String Nat
  workletResult : Except String Nat

/-- The startup fallback chain of startNoiseSuppression: try Insertable
Streams when supported (catching any error), then fall back to the
AudioWorklet implementation when supported (catching any error), and
finally return the original track unmodified.  The result is always an ok
value: every failure of a primitive is caught inside the function. -/
def startNoiseSuppression (env : NoiseEnv) (track : Nat) : Except String Nat :=
  let afterInsertable : Option Nat :=
    if env.insertableStreamsSupported then
      match env.insertableResult with
      | .ok t => some t
      | .error _ => none
    else none
  match afterInsertable with
  | some t => .ok t
  | none =>
    let afterWorklet : Option Nat :=
      if env.audioWorkletSupported then
        match env.workletResult with
        | .ok t => some t
        | .error _ => none
      else none
    match afterWorklet with
    | some t => .ok t
    | none => .ok track

/-- The catch-all of startVadNoiseSuppression: if building the pipeline
succeeds the processed track is returned, and on any error the original
track is returned instead of propagating the failure. -/
def startVadNoiseSuppression (pipelineResult : Except String Nat) (track : Nat) :
    Except String Nat :=
  match pipelineResult with
  | .ok t => .ok t
  | .error _ => .ok track

/-- C8: the noise-suppression start operations never propagate an error.
startNoiseSuppression prefers Insertable Streams, falls back to the
AudioWorklet when the former is unavailable or fails, and returns the
original track when neither is available or both fail; in every case the
result is an ok track.  startVadNoiseSuppression likewise returns the
processed track on success and the original track on any failure. -/
theorem noise_start_never_fails (env : NoiseEnv) (track : Nat) :
    (∃ t, startNoiseSuppression env track = .ok t)
    ∧ (∀ t, env.insertableStreamsSupported = true → env.insertableResult = .ok t →
        startNoiseSuppression env track = .ok t)
    ∧ (∀ t, (env.insertableStreamsSupported = false ∨
          ∃ e, env.insertableResult = .error e) →
        env.audioWorkletSupported = true → env.workletResult = .ok t →
        startNoiseSuppression env track = .ok t)
    ∧ ((env.insertableStreamsSupported = false ∨ ∃ e, env.insertableResult = .error e) →
       (env.audioWorkletSupported = false ∨ ∃ e, env.workletResult = .error e) →
        startNoiseSuppression env track = .ok track)
    ∧ (∀ t, startVadNoiseSuppression (.ok t) track = .ok t)
    ∧ (∀ e, startVadNoiseSuppression (.error e) track = .ok track) := by
  obtain ⟨ins, wk, ir, wr⟩ := env
  refine ⟨?_, ?_, ?_, ?_, fun t => rfl, fun e => rfl⟩
  · cases ins <;> cases wk <;> cases ir <;> cases wr <;>
      simp [startNoiseSuppression]
  · intro t hins hok
    simp only at hins hok
    subst hins hok
    simp [startNoiseSuppression]
  · intro t hfail hwk hok
    simp only at hwk hok
    subst hwk hok
    rcases hfail with h | ⟨e, h⟩ <;> simp only at h <;> subst h <;>
      simp [startNoiseSuppression]
  · intro hif hwf
    rcases hif with h | ⟨e, h⟩ <;> rcases hwf with h2 | ⟨e2, h2⟩ <;>
      simp only at h h2 <;> subst h <;> subst h2 <;>
      simp [startNoiseSuppression]

/-- Witness for noise_start_never_fails at concrete environments. -/
theorem noise_start_never_fails_witness :
    (∃ t, startNoiseSuppression ⟨true, true, .ok 7, .ok 8⟩ 1 = .ok t)
    ∧ (startNoiseSuppression ⟨true, true, .ok 7, .ok 8⟩ 1 = .ok 7)
    ∧ (startNoiseSuppression ⟨true, true, .error "boom", .ok 8⟩ 1 = .ok 8)
    ∧ (startNoiseSuppression ⟨false, false, .ok 7, .ok 8⟩ 1 = .ok 1)
    ∧ (startVadNoiseSuppression (.ok 7) 1 = .ok 7)
    ∧ (startVadNoiseSuppression (.error "boom") 1 = .ok 1) := by
  have h1 := noise_start_never_fails ⟨true, true, .ok 7, .ok 8⟩ 1
  have h2 := noise_start_never_fails ⟨true, true, .error "boom", .ok 8⟩ 1
  have h3 := noise_start_never_fails ⟨false, false, .ok 7, .ok 8⟩ 1
  refine ⟨h1.1, h1.2.1 7 rfl rfl, ?_, ?_, h1.2.2.2.2.1 7, h1.2.2.2.2.2 "boom"⟩
  · exact h2.2.2.1 8 (Or.inr ⟨"boom", rfl⟩) rfl rfl
  · exact h3.2.2.2.1 (Or.inl rfl) (Or.inl rfl)

/- ===================================================================
   Section 3: the PartyKit signaling relay (party/index.ts)
   =================================================================== -/

/-- JavaScript strings are modelled as lists of characters. -/
abbrev JStr := List Char

/-- Lowercasing of one character; the names handled by the relay are
ASCII (sanitizeName strips everything else), where toLowerCase maps the
uppercase letters onto the lowercase ones and fixes everything else. -/
def charLower (c : Char) : Char :=
  if 'A' ≤ c ∧ c ≤ 'Z' then Char.ofNat (c.toNat + 32) else c

/-- The toLowerCase of a JavaScript string. -/
def toLowerCase (s : JStr) : JStr := s.map charLower

/-- Whitespace characters recognized by trim and the whitespace regex. -/
def isJsWhitespace (c : Char) : Bool :=
  c == ' ' || c == '\t' || c == '\n' || c == '\r' ||
    c == Char.ofNat 11 || c == Char.ofNat 12

/-- The trim of a JavaScript string: strip leading and trailing
whitespace. -/
def jsTrim (s : JStr) : JStr :=
  ((s.dropWhile isJsWhitespace).reverse.dropWhile isJsWhitespace).reverse

/-- Helper for the whitespace-collapsing regex replacement: the flag
records whether the previous character belonged to a whitespace run. -/
def collapseWsAux : Bool → JStr → JStr
  | _, [] => []
  | inRun, c :: rest =>
    if isJsWhitespace c then
      if inRun then collapseWsAux true rest
      else ' ' :: collapseWsAux true rest
    else c :: collapseWsAux false rest

/-- Replace every maximal whitespace run by a single space. -/
def collapseWs (s : JStr) : JStr := collapseWsAux false s

/-- The character class kept by sanitizeName: ASCII letters, digits,
space, underscore and hyphen. -/
def isAllowedChar (c : Char) : Bool :=
  ('A' ≤ c && c ≤ 'Z') || ('a' ≤ c && c ≤ 'z') || ('0' ≤ c && c ≤ '9') ||
    c == ' ' || c == '_' || c == '-'

/-- The adjective word list of the name generator. -/
def adjectives : List JStr :=
  [String.toList "Quiet", String.toList "Silver", String.toList "Amber",
   String.toList "Pale", String.toList "Soft", String.toList "Still",
   String.toList "Gentle", String.toList "Faint", String.toList "Distant",
   String.toList "Hidden", String.toList "Ancient", String.toList "Hollow",
   String.toList "Veiled", String.toList "Dusk", String.toList "Dawn",
   String.toList "Lunar", String.toList "Solar", String.toList "Misty",
   String.toList "Frost", String.toList "Ember", String.toList "Ashen",
   String.toList "Golden", String.toList "Violet", String.toList "Scarlet"]

/-- The noun word list of the name generator. -/
def nouns : List JStr :=
  [String.toList "Ember", String.toList "Drift", String.toList "Echo",
   String.toList "Moon", String.toList "Thunder", String.toList "Water",
   String.toList "Stone", String.toList "Wind", String.toList "Shadow",
   String.toList "Light", String.toList "Whisper", String.toList "Tide",
   String.toList "Flame", String.toList "Frost", String.toList "Storm",
   String.toList "Vale", String.toList "Peak", String.toList "Grove",
   String.toList "Shore", String.toList "Haze", String.toList "Glow",
   String.toList "Spark", String.toList "Veil", String.toList "Mist"]

/-- generateName with the two Math.random draws supplied as oracle
indices: an adjective, a space, and a noun. -/
def generateName (a n : Nat) : JStr :=
  adjectives.getD (a % adjectives.length) [] ++
    ' ' :: nouns.getD (n % nouns.length) []

/-- Decimal digit characters of a natural number, as produced by
JavaScript number-to-string conversion. -/
def natChars (n : Nat) : JStr := Nat.toDigits 10 n

/-- sanitizeName: trim, collapse whitespace runs to single spaces, strip
characters outside the allowed class, cap at 24 characters, and fall back
to a generated name when the result is empty. -/
def sanitizeName (g : Nat × Nat) (raw : JStr) : JStr :=
  let name := ((collapseWs (jsTrim raw)).filter isAllowedChar).take 24
  if name = [] then generateName g.1 g.2 else name

/-- The exclusion test of isNameTaken: with no exception every peer
counts, otherwise the excepted id does not. -/
def notExcept (exceptId : Option String) (id : String) : Bool :=
  match exceptId with
  | some e => id != e
  | none => true

/-- isNameTaken: some non-excepted peer holds the name up to case. -/
def isNameTaken (peers : List (String × JStr)) (name : JStr)
    (exceptId : Option String) : Bool :=
  peers.any (fun p => notExcept exceptId p.1 && (toLowerCase p.2 == toLowerCase name))

/-- The numeric-suffix search loop of allocateUniqueName: starting at
index i with the given fuel (the source iterates i from 2 to 999), return
the first free suffixed candidate, or the Date.now()-derived fallback when
the fuel runs out. -/
def allocLoop (peers : List (String × JStr)) (tryBase : JStr) (clock : Nat) :
    Nat → Nat → JStr
  | _, 0 => tryBase ++ '-' :: natChars (clock % 1000)
  | i, fuel + 1 =>
    let candidate := tryBase ++ '-' :: natChars i
    if isNameTaken peers candidate none then allocLoop peers tryBase clock (i + 1) fuel
    else candidate

/-- allocateUniqueName: sanitize the base (or a generated name when the
base is absent or empty), return it if free, otherwise search numeric
suffixes from 2 to 999 and fall back to a clock-derived suffix. -/
def allocateUniqueName (peers : List (String × JStr)) (base : Option JStr)
    (g : Nat × Nat) (clock : Nat) : JStr :=
  let base' := match base with
    | some b => if b = [] then generateName g.1 g.2 else b
    | none => generateName g.1 g.2
  let tryBase := sanitizeName g base'
  if isNameTaken peers tryBase none then allocLoop peers tryBase clock 2 998
  else tryBase

/-- Association-list lookup, mirroring Map.get: the value at the first
matching key. -/
def mapGet {α : Type} : List (String × α) → String → Option α
  | [], _ => none
  | p :: rest, k => if p.1 = k then some p.2 else mapGet rest k

/-- Association-list update, mirroring Map.set: replace the entry in
place when the key is present, append otherwise. -/
def mapSet {α : Type} : List (String × α) → String → α → List (String × α)
  | [], k, v => [(k, v)]
  | p :: rest, k, v =>
    if p.1 = k then (k, v) :: rest else p :: mapSet rest k v

/-- Association-list deletion, mirroring Map.delete. -/
def mapDel {α : Type} (m : List (String × α)) (k : String) : List (String × α) :=
  m.filter (fun p => p.1 != k)

/-- Set insertion, mirroring Set.add. -/
def setAdd (s : List String) (x : String) : List String :=
  if s.contains x then s else s ++ [x]

/-- Set removal, mirroring Set.delete. -/
def setDel (s : List String) (x : String) : List String :=
  s.filter (fun y => y != x)

/-- Parsed client-to-relay messages.  Payloads (session descriptions, ICE
candidates) are opaque and modelled by a number.  The unhandled
constructor stands for any message type without a switch case. -/
inductive CMsg where
  | offer (src dst : String) (payload : Nat)
  | answer (src dst : String) (payload : Nat)
  | iceCandidate (src dst : String) (payload : Nat)
  | muteStatus (peerId : String) (muted : Bool)
  | cameraStatus (enabled : Bool)
  | screenStart
  | screenStop
  | screenSubscribe (src dst : String)
  | screenUnsubscribe (src dst : String)
  | screenOffer (src dst : String) (payload : Nat)
  | screenAnswer (src dst : String) (payload : Nat)
  | screenIce (src dst : String) (payload : Nat)
  | renameRequest (name : JStr)
  | unhandled
deriving DecidableEq

/-- The spread with from overridden: stamp the sender id into the from
field of a targeted message, leaving everything else unchanged. -/
def setFrom : CMsg → String → CMsg
  | .offer _ dst p, s => .offer s dst p
  | .answer _ dst p, s => .answer s dst p
  | .iceCandidate _ dst p, s => .iceCandidate s dst p
  | .screenSubscribe _ dst, s => .screenSubscribe s dst
  | .screenUnsubscribe _ dst, s => .screenUnsubscribe s dst
  | .screenOffer _ dst p, s => .screenOffer s dst p
  | .screenAnswer _ dst p, s => .screenAnswer s dst p
  | .screenIce _ dst p, s => .screenIce s dst p
  | m, _ => m

/-- The destination of a targeted message: the three mesh signaling kinds
and the five screen-share sub-messages carry a to field; everything else
is untargeted. -/
def targetedTo : CMsg → Option String
  | .offer _ dst _ => some dst
  | .answer _ dst _ => some dst
  | .iceCandidate _ dst _ => some dst
  | .screenSubscribe _ dst => some dst
  | .screenUnsubscribe _ dst => some dst
  | .screenOffer _ dst _ => some dst
  | .screenAnswer _ dst _ => some dst
  | .screenIce _ dst _ => some dst
  | _ => none

/-- Relay-to-client messages. -/
inductive SMsg where
  | welcome (peerId : String) (name : JStr) (roster : List (String × JStr × Bool))
  | join (peerId : String) (name : JStr)
  | leave (peerId : String)
  | relayed (m : CMsg)
  | muteStatus (peerId : String) (muted : Bool)
  | cameraStatus (peerId : String) (enabled : Bool)
  | screenStart (peerId : String)
  | screenStop (peerId : String)
  | rename (peerId : String) (name : JStr)
deriving DecidableEq

/-- The per-room relay state: the roster in insertion order and the set
of current screen sharers. -/
structure ServerState where
  peers : List (String × JStr)
  screenSharers : List String
deriving DecidableEq

/-- broadcast: send a message to every connected peer except the excluded
ids, in roster order. -/
def broadcastMsg (peers : List (String × JStr)) (m : SMsg) (exclude : List String) :
    List (String × SMsg) :=
  (peers.filter (fun p => !(exclude.contains p.1))).map (fun p => (p.1, m))

/-- onConnect: allocate a unique display name, register the peer, send it
a welcome with the existing roster (annotated with screen-share status),
and broadcast the join to everyone else. -/
def onConnect (s : ServerState) (connId : String) (g : Nat × Nat) (clock : Nat) :
    ServerState × List (String × SMsg) :=
  let name := allocateUniqueName s.peers none g clock
  let peers' := mapSet s.peers connId name
  let existing := (peers'.filter (fun p => p.1 != connId)).map
    (fun p => (p.1, p.2, s.screenSharers.contains p.1))
  ({ s with peers := peers' },
   (connId, SMsg.welcome connId name existing) ::
     broadcastMsg peers' (SMsg.join connId name) [connId])

/-- Forward a targeted message: when the destination is in the roster,
send it the payload with from stamped as the sender id; otherwise do
nothing. -/
def fwdTo (s : ServerState) (dst : String) (m : CMsg) (sender : String) :
    ServerState × List (String × SMsg) :=
  match mapGet s.peers dst with
  | some _ => (s, [(dst, SMsg.relayed (setFrom m sender))])
  | none => (s, [])

/-- The re-disambiguation of a rename-request: keep the sanitized
proposal when no other peer holds it up to case, otherwise allocate a
suffixed unique name against the full roster. -/
def renameUnique (s : ServerState) (sender : String) (proposed : JStr)
    (g2 : Nat × Nat) (clock : Nat) : JStr :=
  if isNameTaken s.peers proposed (some sender) then
    allocateUniqueName s.peers (some proposed) g2 clock
  else proposed

/-- onMessage: the switch over parsed messages.  A parse failure (the
none case) is caught and logged, leaving the state untouched and sending
nothing. -/
def onMessage (s : ServerState) (sender : String) (msg : Option CMsg)
    (g g2 : Nat × Nat) (clock : Nat) : ServerState × List (String × SMsg) :=
  match msg with
  | none => (s, [])
  | some m =>
    match m with
    | .offer _ dst _ => fwdTo s dst m sender
    | .answer _ dst _ => fwdTo s dst m sender
    | .iceCandidate _ dst _ => fwdTo s dst m sender
    | .muteStatus _ muted =>
      (s, broadcastMsg s.peers (SMsg.muteStatus sender muted) [sender])
    | .cameraStatus enabled =>
      (s, broadcastMsg s.peers (SMsg.cameraStatus sender enabled) [sender])
    | .screenStart =>
      ({ s with screenSharers := setAdd s.screenSharers sender },
       broadcastMsg s.peers (SMsg.screenStart sender) [sender])
    | .screenStop =>
      ({ s with screenSharers := setDel s.screenSharers sender },
       broadcastMsg s.peers (SMsg.screenStop sender) [sender])
    | .screenSubscribe _ dst => fwdTo s dst m sender
    | .screenUnsubscribe _ dst => fwdTo s dst m sender
    | .screenOffer _ dst _ => fwdTo s dst m sender
    | .screenAnswer _ dst _ => fwdTo s dst m sender
    | .screenIce _ dst _ => fwdTo s dst m sender
    | .renameRequest raw =>
      match mapGet s.peers sender with
      | none => (s, [])
      | some current =>
        let unique := renameUnique s sender (sanitizeName g raw) g2 clock
        if unique ≠ current then
          let peers' := mapSet s.peers sender unique
          ({ s with peers := peers' },
           broadcastMsg peers' (SMsg.rename sender unique) [])
        else (s, [])
    | .unhandled => (s, [])

/-- onClose: drop the peer; if it was screen sharing, first broadcast a
screen-stop for it, then broadcast the leave. -/
def onClose (s : ServerState) (connId : String) : ServerState × List (String × SMsg) :=
  let peers' := mapDel s.peers connId
  if s.screenSharers.contains connId then
    ({ peers := peers', screenSharers := setDel s.screenSharers connId },
     broadcastMsg peers' (SMsg.screenStop connId) [] ++
       broadcastMsg peers' (SMsg.leave connId) [])
  else
    ({ peers := peers', screenSharers := s.screenSharers },
     broadcastMsg peers' (SMsg.leave connId) [])

/-- One external event hitting the relay, carrying the oracle inputs the
corresponding handler consumes (Math.random index pairs and Date.now). -/
inductive REvent where
  | connect (id : String) (g : Nat × Nat) (clock : Nat)
  | message (sender : String) (msg : Option CMsg) (g g2 : Nat × Nat) (clock : Nat)
  | close (id : String)

/-- Dispatch one event to its handler. -/
def relayStep (s : ServerState) : REvent → ServerState × List (String × SMsg)
  | .connect id g clock => onConnect s id g clock
  | .message sender m g g2 clock => onMessage s sender m g g2 clock
  | .close id => onClose s id

/-- The state of a freshly created room. -/
def initRelayState : ServerState := ⟨[], []⟩

/-- Run the relay from a given state over a list of events. -/
def runRelayFrom (s : ServerState) (events : List REvent) : ServerState :=
  events.foldl (fun s e => (relayStep s e).1) s

/-- Run the relay from the initial room state. -/
def runRelay (events : List REvent) : ServerState :=
  runRelayFrom initRelayState events

/-- Case-insensitive display names of the current roster. -/
def lowerNames (s : ServerState) : List JStr :=
  s.peers.map (fun p => toLowerCase p.2)

/-- Pairwise distinctness of the roster names up to case. -/
def namesDistinct (s : ServerState) : Prop := (lowerNames s).Nodup

/-- C4: targeted forwarding and malformed-message safety.  For every
targeted wire message (offer, answer, ice-candidate and the five
screen-share sub-messages): when the destination is in the roster, the
relay sends exactly one message, to that destination, namely the payload
with from stamped as the sender id, and the state is unchanged; when the
destination is unknown, nothing is sent and the state (roster and
screen-sharer set alike) is unchanged.  A malformed message is caught:
the handler returns with no sends and an unchanged state. -/
theorem relay_targeted_forwarding (s : ServerState) (sender dst : String)
    (m : CMsg) (g g2 : Nat × Nat) (clock : Nat) :
    (targetedTo m = some dst →
      (((mapGet s.peers dst).isSome →
          onMessage s sender (some m) g g2 clock =
            (s, [(dst, SMsg.relayed (setFrom m sender))]))
        ∧ (mapGet s.peers dst = none →
          onMessage s sender (some m) g g2 clock = (s, []))))
    ∧ onMessage s sender none g g2 clock = (s, []) := by
  refine ⟨?_, rfl⟩
  intro ht
  cases m <;> simp only [targetedTo, Option.some.injEq, reduceCtorEq] at ht <;>
    subst ht <;>
    exact ⟨fun hsome => by
        obtain ⟨v, hv⟩ := Option.isSome_iff_exists.mp hsome
        simp [onMessage, fwdTo, hv],
      fun hnone => by simp [onMessage, fwdTo, hnone]⟩

/-- Witness for relay_targeted_forwarding: a two-peer room where peer a
sends an offer to peer b (forwarded with from stamped) and an offer to an
absent peer x (silently dropped). -/
theorem relay_targeted_forwarding_witness :
    (onMessage ⟨[("a", ['a']), ("b", ['b'])], []⟩ "a"
        (some (CMsg.offer "spoof" "b" 5)) (0, 0) (0, 0) 0 =
      (⟨[("a", ['a']), ("b", ['b'])], []⟩,
       [("b", SMsg.relayed (CMsg.offer "a" "b" 5))]))
    ∧ (onMessage ⟨[("a", ['a']), ("b", ['b'])], []⟩ "a"
        (some (CMsg.offer "a" "x" 5)) (0, 0) (0, 0) 0 =
      (⟨[("a", ['a']), ("b", ['b'])], []⟩, []))
    ∧ (onMessage ⟨[("a", ['a']), ("b", ['b'])], []⟩ "a" none (0, 0) (0, 0) 0 =
      (⟨[("a", ['a']), ("b", ['b'])], []⟩, [])) := by
  have h1 := relay_targeted_forwarding ⟨[("a", ['a']), ("b", ['b'])], []⟩ "a" "b"
    (CMsg.offer "spoof" "b" 5) (0, 0) (0, 0) 0
  have h2 := relay_targeted_forwarding ⟨[("a", ['a']), ("b", ['b'])], []⟩ "a" "x"
    (CMsg.offer "a" "x" 5) (0, 0) (0, 0) 0
  refine ⟨?_, ?_, h1.2⟩
  · have := (h1.1 rfl).1 (by decide)
    simpa [setFrom] using this
  · exact (h2.1 rfl).2 (by decide)

/-- A two-peer room used by the rename scenario where the proposed name
is free. -/
def renameScenarioFree : ServerState :=
  ⟨[("A", String.toList "Quiet Ember"), ("B", String.toList "Amber Drift")], []⟩

/-- A three-peer room used by the rename scenario where the proposed name
is held by peer C. -/
def renameScenarioTaken : ServerState :=
  ⟨[("A", String.toList "Quiet Ember"), ("B", String.toList "Amber Drift"),
    ("C", String.toList "river")], []⟩

/-- C5: rename-request semantics.  The relay sanitizes the proposed name,
re-disambiguates it against the roster excluding the sender, and
broadcasts rename to every peer including the sender precisely when the
result differs from the current name (otherwise it stays silent and the
state is unchanged).  In the concrete scenarios: a free proposal river is
broadcast as river to both peers, while a proposal river already held by
peer C is broadcast as river-2 to all three peers. -/
theorem relay_rename_correct (s : ServerState) (sender : String) (raw : JStr)
    (g g2 : Nat × Nat) (clock : Nat) (current : JStr)
    (hc : mapGet s.peers sender = some current) :
    (renameUnique s sender (sanitizeName g raw) g2 clock ≠ current →
      onMessage s sender (some (CMsg.renameRequest raw)) g g2 clock =
        ({ s with peers := (mapSet s.peers sender
            (renameUnique s sender (sanitizeName g raw) g2 clock)) },
         broadcastMsg
           (mapSet s.peers sender (renameUnique s sender (sanitizeName g raw) g2 clock))
           (SMsg.rename sender (renameUnique s sender (sanitizeName g raw) g2 clock))
           []))
    ∧ (renameUnique s sender (sanitizeName g raw) g2 clock = current →
      onMessage s sender (some (CMsg.renameRequest raw)) g g2 clock = (s, []))
    ∧ (onMessage renameScenarioFree "A"
        (some (CMsg.renameRequest (String.toList "river"))) (0, 0) (0, 0) 0 =
      (⟨[("A", String.toList "river"), ("B", String.toList "Amber Drift")], []⟩,
       [("A", SMsg.rename "A" (String.toList "river")),
        ("B", SMsg.rename "A" (String.toList "river"))]))
    ∧ (onMessage renameScenarioTaken "A"
        (some (CMsg.renameRequest (String.toList "river"))) (0, 0) (0, 0) 0 =
      (⟨[("A", String.toList "river-2"), ("B", String.toList "Amber Drift"),
         ("C", String.toList "river")], []⟩,
       [("A", SMsg.rename "A" (String.toList "river-2")),
        ("B", SMsg.rename "A" (String.toList "river-2")),
        ("C", SMsg.rename "A" (String.toList "river-2"))])) := by
  refine ⟨?_, ?_, by decide, by decide⟩
  · intro hne
    simp [onMessage, hc, hne]
  · intro heq
    simp [onMessage, hc, heq]

/-- Witness for relay_rename_correct: peer A of the free-name scenario
renames to river (a change, so a broadcast happens), and a peer already
named river renaming to river is a silent no-op. -/
theorem relay_rename_correct_witness :
    (onMessage renameScenarioFree "A"
        (some (CMsg.renameRequest (String.toList "river"))) (0, 0) (0, 0) 0 =
      ({ renameScenarioFree with peers := (mapSet renameScenarioFree.peers "A"
          (renameUnique renameScenarioFree "A"
            (sanitizeName (0, 0) (String.toList "river")) (0, 0) 0)) },
       broadcastMsg
         (mapSet renameScenarioFree.peers "A"
           (renameUnique renameScenarioFree "A"
             (sanitizeName (0, 0) (String.toList "river")) (0, 0) 0))
         (SMsg.rename "A"
           (renameUnique renameScenarioFree "A"
             (sanitizeName (0, 0) (String.toList "river")) (0, 0) 0))
         []))
    ∧ (onMessage ⟨[("A", String.toList "river")], []⟩ "A"
        (some (CMsg.renameRequest (String.toList "river"))) (0, 0) (0, 0) 0 =
      (⟨[("A", String.toList "river")], []⟩, [])) := by
  constructor
  · exact (relay_rename_correct renameScenarioFree "A" (String.toList "river")
      (0, 0) (0, 0) 0 (String.toList "Quiet Ember") (by decide)).1 (by decide)
  · exact (relay_rename_correct ⟨[("A", String.toList "river")], []⟩ "A"
      (String.toList "river") (0, 0) (0, 0) 0 (String.toList "river")
      (by decide)).2.1 (by decide)

/- ===================================================================
   Section 4: client orchestrator and screen-share overlay
   (the room page component, src/lib/screen.ts)
   =================================================================== -/

/-- The role of a transport connection object held by the client: a mesh
audio/video connection to a remote peer, a sharer-side screen connection
to a subscriber, or a viewer-side screen connection to a sharer. -/
inductive ConnTag where
  | mesh (remote : String)
  | shareOut (subscriber : String)
  | viewer (sharer : String)
deriving DecidableEq

/-- The client-side record for one remote peer (media streams omitted). -/
structure CPeer where
  name : String
  muted : Bool
  cameraEnabled : Bool
  screenSharing : Bool
  screenSubscribed : Bool
deriving DecidableEq

/-- ScreenShareManager state: whether a capture stream is held and the
map from subscriber id to the subscriber connection object. -/
structure Manager where
  hasStream : Bool
  subscribers : List (String × Nat)
deriving DecidableEq

/-- The client orchestrator state.  Connection objects are numbered by a
fresh counter; openConns lists the not-yet-closed connection objects with
their roles. -/
structure ClientState where
  peers : List (String × CPeer)
  connections : List (String × Nat)
  screenSharing : Bool
  screenShareManager : Option Manager
  screenViewerConnections : List (String × Nat)
  openConns : List (Nat × ConnTag)
  nextConn : Nat
deriving DecidableEq

/-- Messages the client sends to the relay (payloads omitted). -/
inductive COut where
  | offerOut (dst : String)
  | screenSubscribeOut (dst : String)
  | screenUnsubscribeOut (dst : String)
  | screenOfferOut (dst : String)
  | screenStartOut
  | screenStopOut
deriving DecidableEq

/-- Allocate a fresh open connection object with the given role. -/
def newConn (s : ClientState) (tag : ConnTag) : ClientState × Nat :=
  ({ s with openConns := s.openConns ++ [(s.nextConn, tag)],
            nextConn := s.nextConn + 1 }, s.nextConn)

/-- Close a connection object: it stops being open. -/
def closeConn (s : ClientState) (c : Nat) : ClientState :=
  { s with openConns := s.openConns.filter (fun p => p.1 != c) }

/-- connectToPeer: if a connection for the peer already exists, return at
once; otherwise create the peer record, a fresh mesh connection, store it
in the connection map, and send the first offer when acting as
initiator. -/
def connectToPeer (s : ClientState) (peerId nm : String)
    (initiator isScreenSharing : Bool) : ClientState × List COut :=
  if (mapGet s.connections peerId).isSome then (s, [])
  else
    let s1 := { s with peers :=
      (mapSet s.peers peerId ⟨nm, false, false, isScreenSharing, false⟩) }
    let r := newConn s1 (ConnTag.mesh peerId)
    let s3 := { r.1 with connections := (mapSet r.1.connections peerId r.2) }
    (s3, if initiator then [COut.offerOut peerId] else [])

/-- disconnectFromPeer: close and drop the mesh connection when present
and delete the peer record. -/
def disconnectFromPeer (s : ClientState) (peerId : String) : ClientState :=
  let s1 := match mapGet s.connections peerId with
    | some c => { (closeConn s c) with connections := (mapDel s.connections peerId) }
    | none => s
  { s1 with peers := (mapDel s1.peers peerId) }

/-- ScreenShareManager.addSubscriber: nothing happens without a capture
stream; otherwise any existing connection for that subscriber id is
closed first, then a fresh sharer-side connection is created and stored,
and an offer is produced. -/
def mgrAddSubscriber (s : ClientState) (m : Manager) (subscriberId : String) :
    ClientState × Manager × Bool :=
  if m.hasStream = false then (s, m, false)
  else
    let s1 := match mapGet m.subscribers subscriberId with
      | some c => closeConn s c
      | none => s
    let r := newConn s1 (ConnTag.shareOut subscriberId)
    (r.1, { m with subscribers := (mapSet m.subscribers subscriberId r.2) }, true)

/-- ScreenShareManager.removeSubscriber: close and drop the connection
when present, otherwise do nothing. -/
def mgrRemoveSubscriber (s : ClientState) (m : Manager) (subscriberId : String) :
    ClientState × Manager :=
  match mapGet m.subscribers subscriberId with
  | some c => (closeConn s c, { m with subscribers := (mapDel m.subscribers subscriberId) })
  | none => (s, m)

/-- ScreenShareManager.stop: close every subscriber connection, clear the
subscriber map and release the capture stream. -/
def mgrStop (s : ClientState) (m : Manager) : ClientState × Manager :=
  (m.subscribers.foldl (fun acc p => closeConn acc p.2) s, ⟨false, []⟩)

/-- The relay messages and local user actions driving the client
orchestrator that touch connection objects. -/
inductive CEvent where
  | welcome (roster : List (String × String × Bool))
  | join (peerId nm : String)
  | leave (peerId : String)
  | offerMsg (src : String)
  | screenStartMsg (peerId : String)
  | screenStopMsg (peerId : String)
  | screenSubscribeMsg (src : String)
  | screenUnsubscribeMsg (src : String)
  | toggleScreenShare (captureOk : Bool)
  | screenEnded
  | subscribeToScreen (peerId : String)

/-- One client event-handler step, translating the corresponding handler
of the room page component. -/
def clientStep (s : ClientState) : CEvent → ClientState × List COut
  | .welcome roster =>
    roster.foldl (fun acc e =>
      let r := connectToPeer acc.1 e.1 e.2.1 true e.2.2
      (r.1, acc.2 ++ r.2)) (s, [])
  | .join peerId nm => connectToPeer s peerId nm false false
  | .leave peerId => (disconnectFromPeer s peerId, [])
  | .offerMsg src =>
    match mapGet s.connections src with
    | some _ => (s, [])
    | none =>
      match mapGet s.peers src with
      | none => (s, [])
      | some p => connectToPeer s src p.name false false
  | .screenStartMsg peerId =>
    (match mapGet s.peers peerId with
     | some p => { s with peers :=
        (mapSet s.peers peerId { p with screenSharing := true }) }
     | none => s, [])
  | .screenStopMsg peerId =>
    let s1 := match mapGet s.peers peerId with
      | some p => { s with peers :=
          (mapSet s.peers peerId
            { p with screenSharing := false, screenSubscribed := false }) }
      | none => s
    (match mapGet s1.screenViewerConnections peerId with
     | some c => { (closeConn s1 c) with screenViewerConnections :=
        (mapDel s1.screenViewerConnections peerId) }
     | none => s1, [])
  | .screenSubscribeMsg src =>
    match s.screenShareManager, s.screenSharing with
    | some m, true =>
      let r := mgrAddSubscriber s m src
      ({ r.1 with screenShareManager := some r.2.1 },
       if r.2.2 then [COut.screenOfferOut src] else [])
    | some _, false => (s, [])
    | none, _ => (s, [])
  | .screenUnsubscribeMsg src =>
    match s.screenShareManager with
    | some m =>
      let r := mgrRemoveSubscriber s m src
      ({ r.1 with screenShareManager := some r.2 }, [])
    | none => (s, [])
  | .toggleScreenShare ok =>
    if s.screenSharing then
      match s.screenShareManager with
      | some m =>
        let r := mgrStop s m
        ({ r.1 with screenShareManager := none, screenSharing := false },
         [COut.screenStopOut])
      | none =>
        ({ s with screenShareManager := none, screenSharing := false },
         [COut.screenStopOut])
    else
      if ok then
        ({ s with screenShareManager := some ⟨true, []⟩, screenSharing := true },
         [COut.screenStartOut])
      else ({ s with screenShareManager := none }, [])
  | .screenEnded =>
    match s.screenShareManager with
    | some m =>
      let r := mgrStop s m
      ({ r.1 with screenShareManager := some r.2, screenSharing := false },
       [COut.screenStopOut])
    | none => (s, [])
  | .subscribeToScreen peerId =>
    match mapGet s.peers peerId with
    | none => (s, [])
    | some p =>
      if p.screenSharing = false then (s, [])
      else if p.screenSubscribed then
        let s1 := match mapGet s.screenViewerConnections peerId with
          | some c => { (closeConn s c) with screenViewerConnections :=
              (mapDel s.screenViewerConnections peerId) }
          | none => s
        ({ s1 with peers :=
            (mapSet s1.peers peerId { p with screenSubscribed := false }) },
         [COut.screenUnsubscribeOut peerId])
      else
        let r := newConn s (ConnTag.viewer peerId)
        ({ r.1 with
            screenViewerConnections :=
              (mapSet r.1.screenViewerConnections peerId r.2),
            peers := (mapSet r.1.peers peerId { p with screenSubscribed := true }) },
         [COut.screenSubscribeOut peerId])

/-- The state of a freshly loaded room page. -/
def initClientState : ClientState := ⟨[], [], false, none, [], [], 0⟩

/-- Run the client over a list of events from a given state. -/
def runClientFrom (s : ClientState) (events : List CEvent) : ClientState :=
  events.foldl (fun s e => (clientStep s e).1) s

/-- Run the client over a list of events from the initial state. -/
def runClient (events : List CEvent) : ClientState :=
  runClientFrom initClientState events

/- ===================================================================
   Association-list lemmas shared by the relay and client proofs
   =================================================================== -/

/-- Lookup after setting the same key. -/
theorem mapGet_set_self {α : Type} (m : List (String × α)) (k : String) (v : α) :
    mapGet (mapSet m k v) k = some v := by
  induction m with
  | nil => simp [mapSet, mapGet]
  | cons p rest ih =>
    by_cases h : p.1 = k
    · simp [mapSet, h, mapGet]
    · simp [mapSet, h, mapGet, ih]

/-- Lookup after setting a different key. -/
theorem mapGet_set_ne {α : Type} (m : List (String × α)) (k k' : String) (v : α)
    (h : k' ≠ k) : mapGet (mapSet m k v) k' = mapGet m k' := by
  induction m with
  | nil =>
    simp only [mapSet, mapGet]
    rw [if_neg (fun hh => h hh.symm)]
  | cons p rest ih =>
    by_cases hp : p.1 = k
    · subst hp
      simp only [mapSet, if_pos rfl, mapGet]
      rw [if_neg (fun hh => h hh.symm), if_neg (fun hh => h hh.symm)]
    · simp only [mapSet, if_neg hp, mapGet]
      by_cases hpk : p.1 = k'
      · simp [hpk]
      · simp [hpk, ih]

/-- Lookup after deleting the same key. -/
theorem mapGet_del_self {α : Type} (m : List (String × α)) (k : String) :
    mapGet (mapDel m k) k = none := by
  induction m with
  | nil => simp [mapDel, mapGet]
  | cons p rest ih =>
    by_cases h : p.1 = k
    · simpa [mapDel, h, mapGet] using ih
    · simpa [mapDel, h, mapGet] using ih

/-- Lookup after deleting a different key. -/
theorem mapGet_del_ne {α : Type} (m : List (String × α)) (k k' : String)
    (h : k' ≠ k) : mapGet (mapDel m k) k' = mapGet m k' := by
  induction m with
  | nil => simp [mapDel, mapGet]
  | cons p rest ih =>
    by_cases hp : p.1 = k
    · subst hp
      simp only [mapDel, List.filter]
      rw [show (p.1 != p.1) = false by simp]
      simp only [mapGet]
      rw [if_neg (fun hh => h hh.symm)]
      simpa [mapDel] using ih
    · simp only [mapDel, List.filter] at ih ⊢
      rw [show (p.1 != k) = true by simpa using hp]
      by_cases hpk : p.1 = k'
      · simp [mapGet, hpk]
      · simp [mapGet, hpk, ih]

/-- Keys reachable after a mapSet: the old keys and the new one. -/
theorem mem_keys_mapSet {α : Type} (m : List (String × α)) (k a : String) (v : α)
    (h : a ∈ (mapSet m k v).map Prod.fst) : a ∈ m.map Prod.fst ∨ a = k := by
  induction m with
  | nil => simpa [mapSet] using h
  | cons p rest ih =>
    by_cases hp : p.1 = k
    · simp only [mapSet, if_pos hp, List.map_cons, List.mem_cons] at h
      rcases h with h | h
      · exact Or.inr h
      · exact Or.inl (by simp only [List.map_cons, List.mem_cons]; exact Or.inr h)
    · simp only [mapSet, if_neg hp, List.map_cons, List.mem_cons] at h
      rcases h with h | h
      · exact Or.inl (by simp only [List.map_cons, List.mem_cons]; exact Or.inl h)
      · rcases ih h with h1 | h1
        · exact Or.inl (by simp only [List.map_cons, List.mem_cons]; exact Or.inr h1)
        · exact Or.inr h1

/-- mapSet preserves distinctness of the keys. -/
theorem mapSet_keys_nodup {α : Type} (m : List (String × α)) (k : String) (v : α)
    (h : (m.map Prod.fst).Nodup) : ((mapSet m k v).map Prod.fst).Nodup := by
  induction m with
  | nil => simp [mapSet]
  | cons p rest ih =>
    simp only [List.map_cons, List.nodup_cons] at h
    by_cases hp : p.1 = k
    · simp only [mapSet, if_pos hp, List.map_cons, List.nodup_cons]
      exact ⟨hp ▸ h.1, h.2⟩
    · simp only [mapSet, if_neg hp, List.map_cons, List.nodup_cons]
      refine ⟨fun hmem => ?_, ih h.2⟩
      rcases mem_keys_mapSet rest k p.1 v hmem with h1 | h1
      · exact h.1 h1
      · exact hp h1

/-- mapDel preserves distinctness of the keys. -/
theorem mapDel_keys_nodup {α : Type} (m : List (String × α)) (k : String)
    (h : (m.map Prod.fst).Nodup) : ((mapDel m k).map Prod.fst).Nodup :=
  h.sublist (List.Sublist.map _ (List.filter_sublist _))

/-- With distinct keys, every entry is the lookup result of its key. -/
theorem mapGet_of_mem_nodup {α : Type} (m : List (String × α)) (k : String) (v : α)
    (hnd : (m.map Prod.fst).Nodup) (hmem : (k, v) ∈ m) : mapGet m k = some v := by
  induction m with
  | nil => simp at hmem
  | cons p rest ih =>
    simp only [List.map_cons, List.nodup_cons] at hnd
    rcases List.mem_cons.mp hmem with h1 | h1
    · subst h1
      simp [mapGet]
    · by_cases hp : p.1 = k
      · exfalso
        apply hnd.1
        rw [hp]
        exact List.mem_map.mpr ⟨(k, v), h1, rfl⟩
      · simp only [mapGet, if_neg hp]
        exact ih hnd.2 h1

/- ===================================================================
   Client connection invariants
   =================================================================== -/

/-- The inductive invariant of the client state: open connection objects
have pairwise distinct ids below the fresh counter, each of the three
connection maps holds exactly the open connections of its role (so each
role has at most one open connection per remote id), and sharer-side
connections exist only while this client is sharing. -/
structure CInv (s : ClientState) : Prop where
  connIds : (s.openConns.map Prod.fst).Nodup
  fresh : ∀ p ∈ s.openConns, p.1 < s.nextConn
  meshCorr : ∀ q c, mapGet s.connections q = some c ↔
    (c, ConnTag.mesh q) ∈ s.openConns
  shareCorr : ∀ q c,
    (∃ m, s.screenShareManager = some m ∧ mapGet m.subscribers q = some c) ↔
      (c, ConnTag.shareOut q) ∈ s.openConns
  viewCorr : ∀ q c, mapGet s.screenViewerConnections q = some c ↔
    (c, ConnTag.viewer q) ∈ s.openConns
  shareOnlyWhenSharing : s.screenSharing = false →
    ∀ p ∈ s.openConns, ∀ q, p.2 ≠ ConnTag.shareOut q
  peersDom : ∀ q, mapGet s.connections q = none ↔ mapGet s.peers q = none
  viewerPeer : ∀ q c, mapGet s.screenViewerConnections q = some c →
    ∃ p, mapGet s.peers q = some p ∧ p.screenSubscribed = true
  subsNodup : ∀ m, s.screenShareManager = some m →
    (m.subscribers.map Prod.fst).Nodup

/-- Membership in the open set after closing a connection. -/
theorem mem_closeConn (s : ClientState) (c : Nat) (p : Nat × ConnTag) :
    p ∈ (closeConn s c).openConns ↔ p ∈ s.openConns ∧ p.1 ≠ c := by
  simp [closeConn, List.mem_filter]

/-- A fresh connection id is not among the open ids. -/
theorem fresh_not_mem (s : ClientState) (h : CInv s) :
    ∀ tag, (s.nextConn, tag) ∉ s.openConns := by
  intro tag hmem
  exact absurd (h.fresh _ hmem) (lt_irrefl _)

/-- The state built by connectToPeer when no connection exists yet. -/
theorem connectToPeer_none_eq (s : ClientState) (q nm : String) (init sh : Bool)
    (hg : mapGet s.connections q = none) :
    (connectToPeer s q nm init sh).1 =
    { peers := (mapSet s.peers q ⟨nm, false, false, sh, false⟩),
      connections := (mapSet s.connections q s.nextConn),
      screenSharing := s.screenSharing,
      screenShareManager := s.screenShareManager,
      screenViewerConnections := s.screenViewerConnections,
      openConns := s.openConns ++ [(s.nextConn, ConnTag.mesh q)],
      nextConn := s.nextConn + 1 } := by
  simp [connectToPeer, hg, newConn]

/-- connectToPeer preserves the client invariant. -/
theorem cinv_connectToPeer (s : ClientState) (q nm : String) (init sh : Bool)
    (h : CInv s) : CInv (connectToPeer s q nm init sh).1 := by
  cases hg : mapGet s.connections q with
  | some c => simpa [connectToPeer, hg] using h
  | none =>
    rw [connectToPeer_none_eq s q nm init sh hg]
    have hpeer : mapGet s.peers q = none := (h.peersDom q).mp hg
    have hnotmem : s.nextConn ∉ s.openConns.map Prod.fst := by
      intro hmem
      obtain ⟨p, hp, hp1⟩ := List.mem_map.mp hmem
      exact absurd (hp1 ▸ h.fresh p hp) (lt_irrefl _)
    refine ⟨?_, ?_, ?_, ?_, ?_, ?_, ?_, ?_, h.subsNodup⟩
    · simp only [List.map_append, List.map_cons, List.map_nil]
      rw [List.nodup_append]
      exact ⟨h.connIds, List.nodup_singleton _,
        fun a ha hb => by simp at hb; exact hnotmem (hb ▸ ha)⟩
    · intro p hp
      rcases List.mem_append.mp hp with h1 | h1
      · exact Nat.lt_succ_of_lt (h.fresh p h1)
      · simp at h1
        subst h1
        exact Nat.lt_succ_self _
    · intro q' c
      by_cases hq : q' = q
      · subst hq
        rw [mapGet_set_self]
        constructor
        · intro hc
          cases hc
          simp
        · intro hmem
          rcases List.mem_append.mp hmem with h1 | h1
          · exact absurd ((h.meshCorr q' c).mpr h1) (by simp [hg])
          · simp at h1
            simp [h1]
      · rw [mapGet_set_ne _ _ _ _ hq]
        rw [h.meshCorr q' c]
        constructor
        · intro h1; exact List.mem_append.mpr (Or.inl h1)
        · intro h1
          rcases List.mem_append.mp h1 with h1 | h1
          · exact h1
          · simp at h1
            exact absurd h1.2 hq
    · intro q' c
      rw [h.shareCorr q' c]
      constructor
      · intro h1; exact List.mem_append.mpr (Or.inl h1)
      · intro h1
        rcases List.mem_append.mp h1 with h1 | h1
        · exact h1
        · simp at h1
    · intro q' c
      rw [h.viewCorr q' c]
      constructor
      · intro h1; exact List.mem_append.mpr (Or.inl h1)
      · intro h1
        rcases List.mem_append.mp h1 with h1 | h1
        · exact h1
        · simp at h1
    · intro hss p hp q'
      rcases List.mem_append.mp hp with h1 | h1
      · exact h.shareOnlyWhenSharing hss p h1 q'
      · simp at h1
        rw [h1]
        simp
    · intro q'
      by_cases hq : q' = q
      · subst hq
        rw [mapGet_set_self, mapGet_set_self]
        simp
      · rw [mapGet_set_ne _ _ _ _ hq, mapGet_set_ne _ _ _ _ hq]
        exact h.peersDom q'
    · intro q' c hv
      obtain ⟨p, hp, hflag⟩ := h.viewerPeer q' c hv
      by_cases hq : q' = q
      · subst hq
        exact absurd hp (by simp [hpeer])
      · exact ⟨p, by rw [mapGet_set_ne _ _ _ _ hq]; exact hp, hflag⟩

/-- A lookup hit is a list member. -/
theorem mapGet_mem {α : Type} (m : List (String × α)) (k : String) (v : α)
    (h : mapGet m k = some v) : (k, v) ∈ m := by
  induction m with
  | nil => simp [mapGet] at h
  | cons p rest ih =>
    by_cases hp : p.1 = k
    · simp only [mapGet, if_pos hp] at h
      cases h
      have hpk : (k, p.2) = p := by rw [← hp]
      rw [hpk]
      exact List.mem_cons_self p rest
    · simp only [mapGet, if_neg hp] at h
      exact List.mem_cons_of_mem _ (ih h)

/-- Under the invariant, one connection id carries one role. -/
theorem open_tag_unique (s : ClientState) (h : CInv s) (c : Nat)
    (t1 t2 : ConnTag) (h1 : (c, t1) ∈ s.openConns) (h2 : (c, t2) ∈ s.openConns) :
    t1 = t2 := by
  have := List.inj_on_of_nodup_map h.connIds h1 h2 rfl
  exact congrArg Prod.snd this

/-- Updating only the peer map preserves the invariant, provided the peer
domain and the subscribed flags backing open viewer connections are
preserved. -/
theorem cinv_peers_update (s : ClientState) (P : List (String × CPeer)) (h : CInv s)
    (hdom : ∀ q, mapGet P q = none ↔ mapGet s.peers q = none)
    (hflag : ∀ q c, mapGet s.screenViewerConnections q = some c →
      ∃ p, mapGet P q = some p ∧ p.screenSubscribed = true) :
    CInv { s with peers := P } :=
  ⟨h.connIds, h.fresh, h.meshCorr, h.shareCorr, h.viewCorr,
   h.shareOnlyWhenSharing, fun q => (h.peersDom q).trans (hdom q).symm, hflag,
   h.subsNodup⟩

/-- The state built by disconnectFromPeer when a connection exists. -/
theorem disconnectFromPeer_some_eq (s : ClientState) (q : String) (c : Nat)
    (hg : mapGet s.connections q = some c) :
    disconnectFromPeer s q =
    { peers := mapDel s.peers q,
      connections := mapDel s.connections q,
      screenSharing := s.screenSharing,
      screenShareManager := s.screenShareManager,
      screenViewerConnections := s.screenViewerConnections,
      openConns := s.openConns.filter (fun p => p.1 != c),
      nextConn := s.nextConn } := by
  simp [disconnectFromPeer, hg, closeConn]

/-- disconnectFromPeer preserves the invariant; the relay delivers the
screen-stop of a sharing peer before its leave, so at a leave the viewer
connection for that peer is already gone. -/
theorem cinv_disconnectFromPeer (s : ClientState) (q : String) (h : CInv s)
    (hviewer : mapGet s.screenViewerConnections q = none) :
    CInv (disconnectFromPeer s q) := by
  cases hg : mapGet s.connections q with
  | none =>
    have heq : disconnectFromPeer s q = { s with peers := mapDel s.peers q } := by
      simp [disconnectFromPeer, hg]
    rw [heq]
    refine cinv_peers_update s _ h ?_ ?_
    · intro q'
      by_cases hq : q' = q
      · subst hq
        simp [mapGet_del_self, (h.peersDom q').mp hg]
      · rw [mapGet_del_ne _ _ _ hq]
    · intro q' c' hv
      by_cases hq : q' = q
      · subst hq
        exact absurd hv (by simp [hviewer])
      · obtain ⟨p, hp, hf⟩ := h.viewerPeer q' c' hv
        exact ⟨p, by rw [mapGet_del_ne _ _ _ hq]; exact hp, hf⟩
  | some c =>
    rw [disconnectFromPeer_some_eq s q c hg]
    have hcmem : (c, ConnTag.mesh q) ∈ s.openConns := (h.meshCorr q c).mp hg
    have hfilter : ∀ (p : Nat × ConnTag),
        p ∈ s.openConns.filter (fun p => p.1 != c) ↔ p ∈ s.openConns ∧ p.1 ≠ c := by
      intro p
      simp [List.mem_filter]
    refine ⟨?_, ?_, ?_, ?_, ?_, ?_, ?_, ?_, h.subsNodup⟩
    · exact h.connIds.sublist (List.Sublist.map _ (List.filter_sublist _))
    · intro p hp
      exact h.fresh p ((hfilter p).mp hp).1
    · intro q' c'
      by_cases hq : q' = q
      · subst hq
        rw [mapGet_del_self]
        constructor
        · intro hh; cases hh
        · intro hmem
          obtain ⟨hmem, hne⟩ := (hfilter _).mp hmem
          have := (h.meshCorr q' c').mpr hmem
          rw [hg] at this
          cases this
          exact absurd rfl hne
      · rw [mapGet_del_ne _ _ _ hq, h.meshCorr q' c', hfilter]
        constructor
        · intro hmem
          refine ⟨hmem, fun hce => ?_⟩
          subst hce
          exact hq (ConnTag.mesh.inj (open_tag_unique s h c' _ _ hmem hcmem))
        · exact And.left
    · intro q' c'
      rw [h.shareCorr q' c', hfilter]
      constructor
      · intro hmem
        refine ⟨hmem, fun hce => ?_⟩
        subst hce
        exact ConnTag.noConfusion (open_tag_unique s h c' _ _ hmem hcmem)
      · exact And.left
    · intro q' c'
      rw [h.viewCorr q' c', hfilter]
      constructor
      · intro hmem
        refine ⟨hmem, fun hce => ?_⟩
        subst hce
        exact ConnTag.noConfusion (open_tag_unique s h c' _ _ hmem hcmem)
      · exact And.left
    · intro hss p hp
      exact h.shareOnlyWhenSharing hss p ((hfilter p).mp hp).1
    · intro q'
      by_cases hq : q' = q
      · subst hq
        simp [mapGet_del_self]
      · rw [mapGet_del_ne _ _ _ hq, mapGet_del_ne _ _ _ hq]
        exact h.peersDom q'
    · intro q' c' hv
      by_cases hq : q' = q
      · subst hq
        exact absurd hv (by simp [hviewer])
      · obtain ⟨p, hp, hf⟩ := h.viewerPeer q' c' hv
        exact ⟨p, by rw [mapGet_del_ne _ _ _ hq]; exact hp, hf⟩

/-- The state after a screen-subscribe while sharing with a stream and an
existing connection for that subscriber: the old connection is closed, a
fresh one is created and stored. -/
theorem subscribeMsg_eq_some (s : ClientState) (m : Manager) (src : String) (c : Nat)
    (hm : s.screenShareManager = some m) (hsh : s.screenSharing = true)
    (hstream : m.hasStream = true) (hsub : mapGet m.subscribers src = some c) :
    (clientStep s (CEvent.screenSubscribeMsg src)).1 =
    { peers := s.peers,
      connections := s.connections,
      screenSharing := s.screenSharing,
      screenShareManager := some ⟨m.hasStream, (mapSet m.subscribers src s.nextConn)⟩,
      screenViewerConnections := s.screenViewerConnections,
      openConns := (s.openConns.filter (fun p => p.1 != c)) ++
        [(s.nextConn, ConnTag.shareOut src)],
      nextConn := s.nextConn + 1 } := by
  simp [clientStep, hm, hsh, mgrAddSubscriber, hstream, hsub, closeConn, newConn]

/-- The state after a screen-subscribe while sharing with a stream and no
existing connection for that subscriber. -/
theorem subscribeMsg_eq_none (s : ClientState) (m : Manager) (src : String)
    (hm : s.screenShareManager = some m) (hsh : s.screenSharing = true)
    (hstream : m.hasStream = true) (hsub : mapGet m.subscribers src = none) :
    (clientStep s (CEvent.screenSubscribeMsg src)).1 =
    { peers := s.peers,
      connections := s.connections,
      screenSharing := s.screenSharing,
      screenShareManager := some ⟨m.hasStream, (mapSet m.subscribers src s.nextConn)⟩,
      screenViewerConnections := s.screenViewerConnections,
      openConns := s.openConns ++ [(s.nextConn, ConnTag.shareOut src)],
      nextConn := s.nextConn + 1 } := by
  simp [clientStep, hm, hsh, mgrAddSubscriber, hstream, hsub, newConn]

/-- The screen-subscribe handler preserves the invariant: addSubscriber
closes any stale connection for that subscriber before storing the fresh
one. -/
theorem cinv_screenSubscribeMsg (s : ClientState) (src : String) (h : CInv s) :
    CInv (clientStep s (CEvent.screenSubscribeMsg src)).1 := by
  cases hm : s.screenShareManager with
  | none => simpa [clientStep, hm] using h
  | some m =>
    cases hsh : s.screenSharing with
    | false => simpa [clientStep, hm, hsh] using h
    | true =>
      cases hstream : m.hasStream with
      | false =>
        have heq : (clientStep s (CEvent.screenSubscribeMsg src)).1 =
            { s with screenShareManager := some m } := by
          simp [clientStep, hm, hsh, mgrAddSubscriber, hstream]
        rw [heq]
        refine ⟨h.connIds, h.fresh, h.meshCorr, ?_, h.viewCorr,
          h.shareOnlyWhenSharing, h.peersDom, h.viewerPeer,
          fun m' hm' => by cases hm'; exact h.subsNodup m hm⟩
        intro q c
        rw [← h.shareCorr q c]
        constructor
        · rintro ⟨m', hm', hsub⟩
          cases hm'
          exact ⟨m, hm, hsub⟩
        · rintro ⟨m', hm', hsub⟩
          rw [hm] at hm'
          cases hm'
          exact ⟨m, rfl, hsub⟩
      | true =>
        have hnotmem : s.nextConn ∉ s.openConns.map Prod.fst := by
          intro hmem
          obtain ⟨p, hp, hp1⟩ := List.mem_map.mp hmem
          exact absurd (hp1 ▸ h.fresh p hp) (lt_irrefl _)
        cases hsub : mapGet m.subscribers src with
        | some c =>
          rw [subscribeMsg_eq_some s m src c hm hsh hstream hsub]
          have hcmem : (c, ConnTag.shareOut src) ∈ s.openConns :=
            (h.shareCorr src c).mp ⟨m, hm, hsub⟩
          have hfilter : ∀ (p : Nat × ConnTag),
              p ∈ s.openConns.filter (fun p => p.1 != c) ↔
                p ∈ s.openConns ∧ p.1 ≠ c := by
            intro p
            simp [List.mem_filter]
          refine ⟨?_, ?_, ?_, ?_, ?_, ?_, h.peersDom, h.viewerPeer,
            fun m' hm' => by
              cases hm'
              exact mapSet_keys_nodup _ _ _ (h.subsNodup m hm)⟩
          · simp only [List.map_append, List.map_cons, List.map_nil]
            rw [List.nodup_append]
            refine ⟨h.connIds.sublist (List.Sublist.map _ (List.filter_sublist _)),
              List.nodup_singleton _, ?_⟩
            intro a ha hb
            simp at hb
            subst hb
            obtain ⟨p, hp, hp1⟩ := List.mem_map.mp ha
            exact absurd (hp1 ▸ h.fresh p ((hfilter p).mp hp).1) (lt_irrefl _)
          · intro p hp
            rcases List.mem_append.mp hp with h1 | h1
            · exact Nat.lt_succ_of_lt (h.fresh p ((hfilter p).mp h1).1)
            · simp at h1
              subst h1
              exact Nat.lt_succ_self _
          · intro q' c'
            rw [h.meshCorr q' c']
            constructor
            · intro hmem
              refine List.mem_append.mpr (Or.inl ((hfilter _).mpr ⟨hmem, fun hce => ?_⟩))
              subst hce
              exact ConnTag.noConfusion (open_tag_unique s h c' _ _ hmem hcmem)
            · intro hmem
              rcases List.mem_append.mp hmem with h1 | h1
              · exact ((hfilter _).mp h1).1
              · simp at h1
          · intro q' c'
            constructor
            · rintro ⟨m', hm', hsub'⟩
              cases hm'
              by_cases hq : q' = src
              · subst hq
                rw [mapGet_set_self] at hsub'
                cases hsub'
                exact List.mem_append.mpr (Or.inr (by simp))
              · rw [mapGet_set_ne _ _ _ _ hq] at hsub'
                have hold : (c', ConnTag.shareOut q') ∈ s.openConns :=
                  (h.shareCorr q' c').mp ⟨m, hm, hsub'⟩
                refine List.mem_append.mpr (Or.inl ((hfilter _).mpr ⟨hold, fun hce => ?_⟩))
                subst hce
                exact hq (ConnTag.shareOut.inj (open_tag_unique s h c' _ _ hold hcmem))
            · intro hmem
              refine ⟨_, rfl, ?_⟩
              rcases List.mem_append.mp hmem with h1 | h1
              · obtain ⟨h1m, hne⟩ := (hfilter _).mp h1
                obtain ⟨m', hm', hsub'⟩ := (h.shareCorr q' c').mpr h1m
                rw [hm] at hm'
                cases hm'
                by_cases hq : q' = src
                · subst hq
                  rw [hsub] at hsub'
                  cases hsub'
                  exact absurd rfl hne
                · rw [mapGet_set_ne _ _ _ _ hq]
                  exact hsub'
              · simp at h1
                obtain ⟨hc', hq⟩ := h1
                subst hc'
                subst hq
                rw [mapGet_set_self]
          · intro q' c'
            rw [h.viewCorr q' c']
            constructor
            · intro hmem
              refine List.mem_append.mpr (Or.inl ((hfilter _).mpr ⟨hmem, fun hce => ?_⟩))
              subst hce
              exact ConnTag.noConfusion (open_tag_unique s h c' _ _ hmem hcmem)
            · intro hmem
              rcases List.mem_append.mp hmem with h1 | h1
              · exact ((hfilter _).mp h1).1
              · simp at h1
          · intro hss
            simp only [hsh] at hss
            exact absurd hss (by decide)
        | none =>
          rw [subscribeMsg_eq_none s m src hm hsh hstream hsub]
          refine ⟨?_, ?_, ?_, ?_, ?_, ?_, h.peersDom, h.viewerPeer,
            fun m' hm' => by
              cases hm'
              exact mapSet_keys_nodup _ _ _ (h.subsNodup m hm)⟩
          · simp only [List.map_append, List.map_cons, List.map_nil]
            rw [List.nodup_append]
            exact ⟨h.connIds, List.nodup_singleton _,
              fun a ha hb => by simp at hb; exact hnotmem (hb ▸ ha)⟩
          · intro p hp
            rcases List.mem_append.mp hp with h1 | h1
            · exact Nat.lt_succ_of_lt (h.fresh p h1)
            · simp at h1
              subst h1
              exact Nat.lt_succ_self _
          · intro q' c'
            rw [h.meshCorr q' c']
            constructor
            · intro hmem
              exact List.mem_append.mpr (Or.inl hmem)
            · intro hmem
              rcases List.mem_append.mp hmem with h1 | h1
              · exact h1
              · simp at h1
          · intro q' c'
            constructor
            · rintro ⟨m', hm', hsub'⟩
              cases hm'
              by_cases hq : q' = src
              · subst hq
                rw [mapGet_set_self] at hsub'
                cases hsub'
                exact List.mem_append.mpr (Or.inr (by simp))
              · rw [mapGet_set_ne _ _ _ _ hq] at hsub'
                exact List.mem_append.mpr
                  (Or.inl ((h.shareCorr q' c').mp ⟨m, hm, hsub'⟩))
            · intro hmem
              refine ⟨_, rfl, ?_⟩
              rcases List.mem_append.mp hmem with h1 | h1
              · obtain ⟨m', hm', hsub'⟩ := (h.shareCorr q' c').mpr h1
                rw [hm] at hm'
                cases hm'
                by_cases hq : q' = src
                · subst hq
                  rw [hsub] at hsub'
                  cases hsub'
                · rw [mapGet_set_ne _ _ _ _ hq]
                  exact hsub'
              · simp at h1
                obtain ⟨hc', hq⟩ := h1
                subst hc'
                subst hq
                rw [mapGet_set_self]
          · intro q' c'
            rw [h.viewCorr q' c']
            constructor
            · intro hmem
              exact List.mem_append.mpr (Or.inl hmem)
            · intro hmem
              rcases List.mem_append.mp hmem with h1 | h1
              · exact h1
              · simp at h1
          · intro hss
            simp only [hsh] at hss
            exact absurd hss (by decide)

/-- The screen-unsubscribe handler preserves the invariant. -/
theorem cinv_screenUnsubscribeMsg (s : ClientState) (src : String) (h : CInv s) :
    CInv (clientStep s (CEvent.screenUnsubscribeMsg src)).1 := by
  cases hm : s.screenShareManager with
  | none => simpa [clientStep, hm] using h
  | some m =>
    cases hsub : mapGet m.subscribers src with
    | none =>
      have heq : (clientStep s (CEvent.screenUnsubscribeMsg src)).1 =
          { s with screenShareManager := some m } := by
        simp [clientStep, hm, mgrRemoveSubscriber, hsub]
      rw [heq]
      refine ⟨h.connIds, h.fresh, h.meshCorr, ?_, h.viewCorr,
        h.shareOnlyWhenSharing, h.peersDom, h.viewerPeer,
        fun m' hm' => by cases hm'; exact h.subsNodup m hm⟩
      intro q c
      rw [← h.shareCorr q c]
      constructor
      · rintro ⟨m', hm', hsub'⟩
        cases hm'
        exact ⟨m, hm, hsub'⟩
      · rintro ⟨m', hm', hsub'⟩
        rw [hm] at hm'
        cases hm'
        exact ⟨m, rfl, hsub'⟩
    | some c =>
      have heq : (clientStep s (CEvent.screenUnsubscribeMsg src)).1 =
          { peers := s.peers,
            connections := s.connections,
            screenSharing := s.screenSharing,
            screenShareManager := some ⟨m.hasStream, (mapDel m.subscribers src)⟩,
            screenViewerConnections := s.screenViewerConnections,
            openConns := s.openConns.filter (fun p => p.1 != c),
            nextConn := s.nextConn } := by
        simp [clientStep, hm, mgrRemoveSubscriber, hsub, closeConn]
      rw [heq]
      have hcmem : (c, ConnTag.shareOut src) ∈ s.openConns :=
        (h.shareCorr src c).mp ⟨m, hm, hsub⟩
      have hfilter : ∀ (p : Nat × ConnTag),
          p ∈ s.openConns.filter (fun p => p.1 != c) ↔
            p ∈ s.openConns ∧ p.1 ≠ c := by
        intro p
        simp [List.mem_filter]
      refine ⟨?_, ?_, ?_, ?_, ?_, ?_, h.peersDom, h.viewerPeer,
        fun m' hm' => by
          cases hm'
          exact mapDel_keys_nodup _ _ (h.subsNodup m hm)⟩
      · exact h.connIds.sublist (List.Sublist.map _ (List.filter_sublist _))
      · intro p hp
        exact h.fresh p ((hfilter p).mp hp).1
      · intro q' c'
        rw [h.meshCorr q' c', hfilter]
        constructor
        · intro hmem
          refine ⟨hmem, fun hce => ?_⟩
          subst hce
          exact ConnTag.noConfusion (open_tag_unique s h c' _ _ hmem hcmem)
        · exact And.left
      · intro q' c'
        constructor
        · rintro ⟨m', hm', hsub'⟩
          cases hm'
          by_cases hq : q' = src
          · subst hq
            rw [mapGet_del_self] at hsub'
            cases hsub'
          · rw [mapGet_del_ne _ _ _ hq] at hsub'
            have hold : (c', ConnTag.shareOut q') ∈ s.openConns :=
              (h.shareCorr q' c').mp ⟨m, hm, hsub'⟩
            refine (hfilter _).mpr ⟨hold, fun hce => ?_⟩
            subst hce
            exact hq (ConnTag.shareOut.inj (open_tag_unique s h c' _ _ hold hcmem))
        · intro hmem
          obtain ⟨hmem, hne⟩ := (hfilter _).mp hmem
          obtain ⟨m', hm', hsub'⟩ := (h.shareCorr q' c').mpr hmem
          rw [hm] at hm'
          cases hm'
          refine ⟨_, rfl, ?_⟩
          by_cases hq : q' = src
          · subst hq
            rw [hsub] at hsub'
            cases hsub'
            exact absurd rfl hne
          · rw [mapGet_del_ne _ _ _ hq]
            exact hsub'
      · intro q' c'
        rw [h.viewCorr q' c', hfilter]
        constructor
        · intro hmem
          refine ⟨hmem, fun hce => ?_⟩
          subst hce
          exact ConnTag.noConfusion (open_tag_unique s h c' _ _ hmem hcmem)
        · exact And.left
      · intro hss p hp
        exact h.shareOnlyWhenSharing hss p ((hfilter p).mp hp).1

/-- The screen-stop handler preserves the invariant: it clears the peer
flags and closes the viewer connection together. -/
theorem cinv_screenStopMsg (s : ClientState) (q : String) (h : CInv s) :
    CInv (clientStep s (CEvent.screenStopMsg q)).1 := by
  cases hp : mapGet s.peers q with
  | none =>
    cases hv : mapGet s.screenViewerConnections q with
    | some c =>
      obtain ⟨p, hp', _⟩ := h.viewerPeer q c hv
      rw [hp] at hp'
      cases hp'
    | none =>
      have heq : (clientStep s (CEvent.screenStopMsg q)).1 = s := by
        simp [clientStep, hp, hv]
      rw [heq]
      exact h
  | some p =>
    cases hv : mapGet s.screenViewerConnections q with
    | none =>
      have heq : (clientStep s (CEvent.screenStopMsg q)).1 =
          { s with peers := (mapSet s.peers q
            { p with screenSharing := false, screenSubscribed := false }) } := by
        simp [clientStep, hp, hv]
      rw [heq]
      refine cinv_peers_update s _ h ?_ ?_
      · intro q'
        by_cases hq : q' = q
        · subst hq
          rw [mapGet_set_self]
          simp [hp]
        · rw [mapGet_set_ne _ _ _ _ hq]
      · intro q' c' hv'
        by_cases hq : q' = q
        · subst hq
          exact absurd hv' (by simp [hv])
        · obtain ⟨p', hp', hf⟩ := h.viewerPeer q' c' hv'
          exact ⟨p', by rw [mapGet_set_ne _ _ _ _ hq]; exact hp', hf⟩
    | some c =>
      have heq : (clientStep s (CEvent.screenStopMsg q)).1 =
          { peers := (mapSet s.peers q
              { p with screenSharing := false, screenSubscribed := false }),
            connections := s.connections,
            screenSharing := s.screenSharing,
            screenShareManager := s.screenShareManager,
            screenViewerConnections := (mapDel s.screenViewerConnections q),
            openConns := s.openConns.filter (fun x => x.1 != c),
            nextConn := s.nextConn } := by
        simp [clientStep, hp, hv, closeConn]
      rw [heq]
      have hcmem : (c, ConnTag.viewer q) ∈ s.openConns := (h.viewCorr q c).mp hv
      have hfilter : ∀ (x : Nat × ConnTag),
          x ∈ s.openConns.filter (fun x => x.1 != c) ↔
            x ∈ s.openConns ∧ x.1 ≠ c := by
        intro x
        simp [List.mem_filter]
      refine ⟨?_, ?_, ?_, ?_, ?_, ?_, ?_, ?_, h.subsNodup⟩
      · exact h.connIds.sublist (List.Sublist.map _ (List.filter_sublist _))
      · intro x hx
        exact h.fresh x ((hfilter x).mp hx).1
      · intro q' c'
        rw [h.meshCorr q' c', hfilter]
        constructor
        · intro hmem
          refine ⟨hmem, fun hce => ?_⟩
          subst hce
          exact ConnTag.noConfusion (open_tag_unique s h c' _ _ hmem hcmem)
        · exact And.left
      · intro q' c'
        rw [h.shareCorr q' c', hfilter]
        constructor
        · intro hmem
          refine ⟨hmem, fun hce => ?_⟩
          subst hce
          exact ConnTag.noConfusion (open_tag_unique s h c' _ _ hmem hcmem)
        · exact And.left
      · intro q' c'
        by_cases hq : q' = q
        · subst hq
          rw [mapGet_del_self]
          constructor
          · intro hh; cases hh
          · intro hmem
            obtain ⟨hmem, hne⟩ := (hfilter _).mp hmem
            have := (h.viewCorr q' c').mpr hmem
            rw [hv] at this
            cases this
            exact absurd rfl hne
        · rw [mapGet_del_ne _ _ _ hq, h.viewCorr q' c', hfilter]
          constructor
          · intro hmem
            refine ⟨hmem, fun hce => ?_⟩
            subst hce
            exact hq (ConnTag.viewer.inj (open_tag_unique s h c' _ _ hmem hcmem))
          · exact And.left
      · intro hss x hx
        exact h.shareOnlyWhenSharing hss x ((hfilter x).mp hx).1
      · intro q'
        by_cases hq : q' = q
        · subst hq
          rw [mapGet_set_self]
          simp only [reduceCtorEq, iff_false]
          intro hc
          have h2 := (h.peersDom q').mp hc
          rw [hp] at h2
          cases h2
        · rw [mapGet_set_ne _ _ _ _ hq]
          exact h.peersDom q'
      · intro q' c' hv'
        by_cases hq : q' = q
        · subst hq
          rw [mapGet_del_self] at hv'
          cases hv'
        · rw [mapGet_del_ne _ _ _ hq] at hv'
          obtain ⟨p', hp', hf⟩ := h.viewerPeer q' c' hv'
          exact ⟨p', by rw [mapGet_set_ne _ _ _ _ hq]; exact hp', hf⟩

/-- Removing the viewer connection of sharer q (closing it, dropping the
map entry) together with any domain-preserving peer-map update keeps the
invariant. -/
theorem cinv_viewer_removed (s : ClientState) (q : String) (c : Nat)
    (P : List (String × CPeer)) (h : CInv s)
    (hv : mapGet s.screenViewerConnections q = some c)
    (hdom : ∀ q', mapGet P q' = none ↔ mapGet s.peers q' = none)
    (hflag : ∀ q' c', q' ≠ q → mapGet s.screenViewerConnections q' = some c' →
      ∃ p, mapGet P q' = some p ∧ p.screenSubscribed = true) :
    CInv { peers := P,
           connections := s.connections,
           screenSharing := s.screenSharing,
           screenShareManager := s.screenShareManager,
           screenViewerConnections := (mapDel s.screenViewerConnections q),
           openConns := s.openConns.filter (fun x => x.1 != c),
           nextConn := s.nextConn } := by
  have hcmem : (c, ConnTag.viewer q) ∈ s.openConns := (h.viewCorr q c).mp hv
  have hfilter : ∀ (x : Nat × ConnTag),
      x ∈ s.openConns.filter (fun x => x.1 != c) ↔
        x ∈ s.openConns ∧ x.1 ≠ c := by
    intro x
    simp [List.mem_filter]
  refine ⟨?_, ?_, ?_, ?_, ?_, ?_, ?_, ?_, h.subsNodup⟩
  · exact h.connIds.sublist (List.Sublist.map _ (List.filter_sublist _))
  · intro x hx
    exact h.fresh x ((hfilter x).mp hx).1
  · intro q' c'
    rw [h.meshCorr q' c', hfilter]
    constructor
    · intro hmem
      refine ⟨hmem, fun hce => ?_⟩
      subst hce
      exact ConnTag.noConfusion (open_tag_unique s h c' _ _ hmem hcmem)
    · exact And.left
  · intro q' c'
    rw [h.shareCorr q' c', hfilter]
    constructor
    · intro hmem
      refine ⟨hmem, fun hce => ?_⟩
      subst hce
      exact ConnTag.noConfusion (open_tag_unique s h c' _ _ hmem hcmem)
    · exact And.left
  · intro q' c'
    by_cases hq : q' = q
    · subst hq
      rw [mapGet_del_self]
      constructor
      · intro hh; cases hh
      · intro hmem
        obtain ⟨hmem, hne⟩ := (hfilter _).mp hmem
        have := (h.viewCorr q' c').mpr hmem
        rw [hv] at this
        cases this
        exact absurd rfl hne
    · rw [mapGet_del_ne _ _ _ hq, h.viewCorr q' c', hfilter]
      constructor
      · intro hmem
        refine ⟨hmem, fun hce => ?_⟩
        subst hce
        exact hq (ConnTag.viewer.inj (open_tag_unique s h c' _ _ hmem hcmem))
      · exact And.left
  · intro hss x hx
    exact h.shareOnlyWhenSharing hss x ((hfilter x).mp hx).1
  · intro q'
    rw [hdom q']
    exact h.peersDom q'
  · intro q' c' hv'
    by_cases hq : q' = q
    · subst hq
      rw [mapGet_del_self] at hv'
      cases hv'
    · rw [mapGet_del_ne _ _ _ hq] at hv'
      exact hflag q' c' hq hv'

/-- The subscribe-toggle action preserves the invariant: unsubscribing
closes and drops the viewer connection, subscribing creates a fresh one
for a sharer that had none. -/
theorem cinv_subscribeToScreen (s : ClientState) (q : String) (h : CInv s) :
    CInv (clientStep s (CEvent.subscribeToScreen q)).1 := by
  cases hp : mapGet s.peers q with
  | none => simpa [clientStep, hp] using h
  | some p =>
    cases hshare : p.screenSharing with
    | false => simpa [clientStep, hp, hshare] using h
    | true =>
      cases hsubd : p.screenSubscribed with
      | true =>
        cases hv : mapGet s.screenViewerConnections q with
        | some c =>
          have heq : (clientStep s (CEvent.subscribeToScreen q)).1 =
              { peers := (mapSet s.peers q { p with screenSubscribed := false }),
                connections := s.connections,
                screenSharing := s.screenSharing,
                screenShareManager := s.screenShareManager,
                screenViewerConnections := (mapDel s.screenViewerConnections q),
                openConns := s.openConns.filter (fun x => x.1 != c),
                nextConn := s.nextConn } := by
            simp [clientStep, hp, hshare, hsubd, hv, closeConn]
          rw [heq]
          refine cinv_viewer_removed s q c _ h hv ?_ ?_
          · intro q'
            by_cases hq : q' = q
            · subst hq
              rw [mapGet_set_self]
              simp [hp]
            · rw [mapGet_set_ne _ _ _ _ hq]
          · intro q' c' hq hv'
            obtain ⟨p', hp', hf⟩ := h.viewerPeer q' c' hv'
            exact ⟨p', by rw [mapGet_set_ne _ _ _ _ hq]; exact hp', hf⟩
        | none =>
          have heq : (clientStep s (CEvent.subscribeToScreen q)).1 =
              { s with peers := (mapSet s.peers q { p with screenSubscribed := false }) } := by
            simp [clientStep, hp, hshare, hsubd, hv]
          rw [heq]
          refine cinv_peers_update s _ h ?_ ?_
          · intro q'
            by_cases hq : q' = q
            · subst hq
              rw [mapGet_set_self]
              simp [hp]
            · rw [mapGet_set_ne _ _ _ _ hq]
          · intro q' c' hv'
            by_cases hq : q' = q
            · subst hq
              exact absurd hv' (by simp [hv])
            · obtain ⟨p', hp', hf⟩ := h.viewerPeer q' c' hv'
              exact ⟨p', by rw [mapGet_set_ne _ _ _ _ hq]; exact hp', hf⟩
      | false =>
        have hvnone : mapGet s.screenViewerConnections q = none := by
          cases hv : mapGet s.screenViewerConnections q with
          | none => rfl
          | some c =>
            obtain ⟨p', hp', hf⟩ := h.viewerPeer q c hv
            rw [hp] at hp'
            cases hp'
            rw [hsubd] at hf
            cases hf
        have heq : (clientStep s (CEvent.subscribeToScreen q)).1 =
            { peers := (mapSet s.peers q { p with screenSubscribed := true }),
              connections := s.connections,
              screenSharing := s.screenSharing,
              screenShareManager := s.screenShareManager,
              screenViewerConnections :=
                (mapSet s.screenViewerConnections q s.nextConn),
              openConns := s.openConns ++ [(s.nextConn, ConnTag.viewer q)],
              nextConn := s.nextConn + 1 } := by
          simp [clientStep, hp, hshare, hsubd, newConn]
        rw [heq]
        have hnotmem : s.nextConn ∉ s.openConns.map Prod.fst := by
          intro hmem
          obtain ⟨x, hx, hx1⟩ := List.mem_map.mp hmem
          exact absurd (hx1 ▸ h.fresh x hx) (lt_irrefl _)
        refine ⟨?_, ?_, ?_, ?_, ?_, ?_, ?_, ?_, h.subsNodup⟩
        · simp only [List.map_append, List.map_cons, List.map_nil]
          rw [List.nodup_append]
          exact ⟨h.connIds, List.nodup_singleton _,
            fun a ha hb => by simp at hb; exact hnotmem (hb ▸ ha)⟩
        · intro x hx
          rcases List.mem_append.mp hx with h1 | h1
          · exact Nat.lt_succ_of_lt (h.fresh x h1)
          · simp at h1
            subst h1
            exact Nat.lt_succ_self _
        · intro q' c'
          rw [h.meshCorr q' c']
          constructor
          · intro hmem
            exact List.mem_append.mpr (Or.inl hmem)
          · intro hmem
            rcases List.mem_append.mp hmem with h1 | h1
            · exact h1
            · simp at h1
        · intro q' c'
          rw [h.shareCorr q' c']
          constructor
          · intro hmem
            exact List.mem_append.mpr (Or.inl hmem)
          · intro hmem
            rcases List.mem_append.mp hmem with h1 | h1
            · exact h1
            · simp at h1
        · intro q' c'
          by_cases hq : q' = q
          · subst hq
            rw [mapGet_set_self]
            constructor
            · intro hc
              cases hc
              exact List.mem_append.mpr (Or.inr (by simp))
            · intro hmem
              rcases List.mem_append.mp hmem with h1 | h1
              · have := (h.viewCorr q' c').mpr h1
                rw [hvnone] at this
                cases this
              · simp at h1
                simp [h1]
          · rw [mapGet_set_ne _ _ _ _ hq, h.viewCorr q' c']
            constructor
            · intro hmem
              exact List.mem_append.mpr (Or.inl hmem)
            · intro hmem
              rcases List.mem_append.mp hmem with h1 | h1
              · exact h1
              · simp at h1
                exact absurd h1.2 hq
        · intro hss x hx q'
          rcases List.mem_append.mp hx with h1 | h1
          · exact h.shareOnlyWhenSharing hss x h1 q'
          · simp at h1
            rw [h1]
            simp
        · intro q'
          by_cases hq : q' = q
          · subst hq
            rw [mapGet_set_self]
            simp only [reduceCtorEq, iff_false]
            intro hc
            have h2 := (h.peersDom q').mp hc
            rw [hp] at h2
            cases h2
          · rw [mapGet_set_ne _ _ _ _ hq]
            exact h.peersDom q'
        · intro q' c' hv'
          by_cases hq : q' = q
          · subst hq
            rw [mapGet_set_self] at hv'
            exact ⟨{ p with screenSubscribed := true }, mapGet_set_self _ _ _, rfl⟩
          · rw [mapGet_set_ne _ _ _ _ hq] at hv'
            obtain ⟨p', hp', hf⟩ := h.viewerPeer q' c' hv'
            exact ⟨p', by rw [mapGet_set_ne _ _ _ _ hq]; exact hp', hf⟩

/-- Closing a list of connections folds down to one filter over the open
set. -/
theorem foldClose_open_eq :
    ∀ (l : List (String × Nat)) (s : ClientState),
      (l.foldl (fun acc q => closeConn acc q.2) s).openConns =
        s.openConns.filter (fun x => l.all (fun e => x.1 != e.2)) := by
  intro l
  induction l with
  | nil =>
    intro s
    simp
  | cons q l ih =>
    intro s
    simp only [List.foldl_cons]
    rw [ih]
    simp only [closeConn, List.filter_filter]
    congr 1
    funext a
    simp [List.all_cons, Bool.and_comm]

/-- Closing a list of connections leaves every other field unchanged. -/
theorem foldClose_fields :
    ∀ (l : List (String × Nat)) (s : ClientState),
      (l.foldl (fun acc q => closeConn acc q.2) s).peers = s.peers ∧
      (l.foldl (fun acc q => closeConn acc q.2) s).connections = s.connections ∧
      (l.foldl (fun acc q => closeConn acc q.2) s).screenSharing = s.screenSharing ∧
      (l.foldl (fun acc q => closeConn acc q.2) s).screenShareManager =
        s.screenShareManager ∧
      (l.foldl (fun acc q => closeConn acc q.2) s).screenViewerConnections =
        s.screenViewerConnections ∧
      (l.foldl (fun acc q => closeConn acc q.2) s).nextConn = s.nextConn := by
  intro l
  induction l with
  | nil => intro s; exact ⟨rfl, rfl, rfl, rfl, rfl, rfl⟩
  | cons q l ih =>
    intro s
    simpa only [List.foldl_cons, closeConn] using ih _

/-- Stopping the manager while clearing it preserves the invariant: this
covers both the toggle-off path (manager set to none) and the
browser-initiated end path (manager kept with a cleared subscriber map);
the resulting manager option carries no subscribers. -/
theorem cinv_after_stop (s : ClientState) (m : Manager) (h : CInv s)
    (hm : s.screenShareManager = some m) (mo : Option Manager)
    (hmo : ∀ m', mo = some m' → m'.subscribers = []) :
    CInv { (mgrStop s m).1 with screenShareManager := mo, screenSharing := false } := by
  have hflds : (mgrStop s m).1.peers = s.peers ∧
      (mgrStop s m).1.connections = s.connections ∧
      (mgrStop s m).1.screenSharing = s.screenSharing ∧
      (mgrStop s m).1.screenShareManager = s.screenShareManager ∧
      (mgrStop s m).1.screenViewerConnections = s.screenViewerConnections ∧
      (mgrStop s m).1.nextConn = s.nextConn := foldClose_fields m.subscribers s
  have hopen : ∀ (x : Nat × ConnTag),
      x ∈ (mgrStop s m).1.openConns ↔
        x ∈ s.openConns ∧ ∀ e ∈ m.subscribers, x.1 ≠ e.2 := by
    intro x
    simp only [mgrStop, foldClose_open_eq, List.mem_filter, List.all_eq_true]
    constructor
    · rintro ⟨h1, h2⟩
      exact ⟨h1, fun e he => by simpa using h2 e he⟩
    · rintro ⟨h1, h2⟩
      exact ⟨h1, fun e he => by simpa using h2 e he⟩
  have hsubOpen : ∀ e ∈ m.subscribers, (e.2, ConnTag.shareOut e.1) ∈ s.openConns := by
    intro e he
    exact (h.shareCorr e.1 e.2).mp
      ⟨m, hm, mapGet_of_mem_nodup _ _ _ (h.subsNodup m hm) (by cases e; exact he)⟩
  refine ⟨?_, ?_, ?_, ?_, ?_, ?_, ?_, ?_, ?_⟩
  · show ((mgrStop s m).1.openConns.map Prod.fst).Nodup
    rw [show (mgrStop s m).1.openConns =
      s.openConns.filter (fun x => m.subscribers.all (fun e => x.1 != e.2)) from
        foldClose_open_eq _ _]
    exact h.connIds.sublist (List.Sublist.map _ (List.filter_sublist _))
  · intro x hx
    show x.1 < (mgrStop s m).1.nextConn
    rw [hflds.2.2.2.2.2]
    exact h.fresh x ((hopen x).mp hx).1
  · intro q' c'
    show mapGet (mgrStop s m).1.connections q' = some c' ↔
      (c', ConnTag.mesh q') ∈ (mgrStop s m).1.openConns
    rw [hflds.2.1, h.meshCorr q' c']
    constructor
    · intro hmem
      refine (hopen _).mpr ⟨hmem, fun e he hce => ?_⟩
      subst hce
      exact ConnTag.noConfusion (open_tag_unique s h _ _ _ hmem (hsubOpen e he))
    · intro hmem
      exact ((hopen _).mp hmem).1
  · intro q' c'
    constructor
    · rintro ⟨m', hm', hsub'⟩
      replace hm' : mo = some m' := hm'
      rw [hmo m' hm'] at hsub'
      simp [mapGet] at hsub'
    · intro hmem
      replace hmem : (c', ConnTag.shareOut q') ∈ (mgrStop s m).1.openConns := hmem
      have hx := (hopen _).mp hmem
      obtain ⟨m', hm', hsub'⟩ := (h.shareCorr q' c').mpr hx.1
      rw [hm] at hm'
      cases hm'
      exact absurd rfl (hx.2 (q', c') (mapGet_mem _ _ _ hsub'))
  · intro q' c'
    show mapGet (mgrStop s m).1.screenViewerConnections q' = some c' ↔
      (c', ConnTag.viewer q') ∈ (mgrStop s m).1.openConns
    rw [hflds.2.2.2.2.1, h.viewCorr q' c']
    constructor
    · intro hmem
      refine (hopen _).mpr ⟨hmem, fun e he hce => ?_⟩
      subst hce
      exact ConnTag.noConfusion (open_tag_unique s h _ _ _ hmem (hsubOpen e he))
    · intro hmem
      exact ((hopen _).mp hmem).1
  · intro _ x hx q'
    intro hx2
    replace hx : x ∈ (mgrStop s m).1.openConns := hx
    have hmem := (hopen _).mp hx
    have hxopen : (x.1, ConnTag.shareOut q') ∈ s.openConns := by
      rw [← hx2]
      exact hmem.1
    obtain ⟨m', hm', hsub'⟩ := (h.shareCorr q' x.1).mpr hxopen
    rw [hm] at hm'
    cases hm'
    exact absurd rfl (hmem.2 (q', x.1) (mapGet_mem _ _ _ hsub'))
  · intro q'
    show mapGet (mgrStop s m).1.connections q' = none ↔
      mapGet (mgrStop s m).1.peers q' = none
    rw [hflds.2.1, hflds.1]
    exact h.peersDom q'
  · intro q' c' hv'
    replace hv' : mapGet (mgrStop s m).1.screenViewerConnections q' = some c' := hv'
    rw [hflds.2.2.2.2.1] at hv'
    obtain ⟨p', hp', hf⟩ := h.viewerPeer q' c' hv'
    refine ⟨p', ?_, hf⟩
    show mapGet (mgrStop s m).1.peers q' = some p'
    rw [hflds.1]
    exact hp'
  · intro m' hm'
    replace hm' : mo = some m' := hm'
    rw [hmo m' hm']
    simp

/-- The screen share toggle preserves the invariant in all four paths:
stop with or without a manager, successful start, failed start. -/
theorem cinv_toggleScreenShare (s : ClientState) (ok : Bool) (h : CInv s) :
    CInv (clientStep s (CEvent.toggleScreenShare ok)).1 := by
  cases hsh : s.screenSharing with
  | true =>
    cases hm : s.screenShareManager with
    | some m =>
      have heq : (clientStep s (CEvent.toggleScreenShare ok)).1 =
          { (mgrStop s m).1 with screenShareManager := none, screenSharing := false } := by
        simp [clientStep, hsh, hm]
      rw [heq]
      exact cinv_after_stop s m h hm none (fun m' hm' => by cases hm')
    | none =>
      have heq : (clientStep s (CEvent.toggleScreenShare ok)).1 =
          { s with screenShareManager := none, screenSharing := false } := by
        simp [clientStep, hsh, hm]
      rw [heq]
      have hnoshare : ∀ c' q', (c', ConnTag.shareOut q') ∉ s.openConns := by
        intro c' q' hmem
        obtain ⟨m', hm', _⟩ := (h.shareCorr q' c').mpr hmem
        rw [hm] at hm'
        cases hm'
      refine ⟨h.connIds, h.fresh, h.meshCorr, ?_, h.viewCorr, ?_,
        h.peersDom, h.viewerPeer, fun m' hm' => by cases hm'⟩
      · intro q' c'
        constructor
        · rintro ⟨m', hm', _⟩
          cases hm'
        · intro hmem
          exact absurd hmem (hnoshare c' q')
      · intro _ x hx q' hx2
        refine hnoshare x.1 q' ?_
        rw [← hx2]
        exact hx
  | false =>
    cases ok with
    | true =>
      have heq : (clientStep s (CEvent.toggleScreenShare true)).1 =
          { s with screenShareManager := some ⟨true, []⟩, screenSharing := true } := by
        simp [clientStep, hsh]
      rw [heq]
      refine ⟨h.connIds, h.fresh, h.meshCorr, ?_, h.viewCorr, ?_,
        h.peersDom, h.viewerPeer, ?_⟩
      · intro q' c'
        constructor
        · rintro ⟨m', hm', hsub'⟩
          cases hm'
          simp [mapGet] at hsub'
        · intro hmem
          exact absurd rfl (h.shareOnlyWhenSharing hsh _ hmem q')
      · intro hss
        cases hss
      · intro m' hm'
        cases hm'
        simp
    | false =>
      have heq : (clientStep s (CEvent.toggleScreenShare false)).1 =
          { s with screenShareManager := none } := by
        simp [clientStep, hsh]
      rw [heq]
      refine ⟨h.connIds, h.fresh, h.meshCorr, ?_, h.viewCorr, ?_,
        h.peersDom, h.viewerPeer, fun m' hm' => by cases hm'⟩
      · intro q' c'
        constructor
        · rintro ⟨m', hm', _⟩
          cases hm'
        · intro hmem
          exact absurd rfl (h.shareOnlyWhenSharing hsh _ hmem q')
      · intro _ x hx q'
        exact h.shareOnlyWhenSharing hsh x hx q'

/-- The browser-initiated share end preserves the invariant. -/
theorem cinv_screenEnded (s : ClientState) (h : CInv s) :
    CInv (clientStep s CEvent.screenEnded).1 := by
  cases hm : s.screenShareManager with
  | none => simpa [clientStep, hm] using h
  | some m =>
    have heq : (clientStep s CEvent.screenEnded).1 =
        { (mgrStop s m).1 with screenShareManager := some ⟨false, []⟩, screenSharing := false } := by
      simp only [clientStep]
      rw [hm]
      rfl
    rw [heq]
    exact cinv_after_stop s m h hm (some ⟨false, []⟩)
      (fun m' hm' => by cases hm'; rfl)

/-- The screen-start presence update preserves the invariant. -/
theorem cinv_screenStartMsg (s : ClientState) (q : String) (h : CInv s) :
    CInv (clientStep s (CEvent.screenStartMsg q)).1 := by
  cases hp : mapGet s.peers q with
  | none => simpa [clientStep, hp] using h
  | some p =>
    have heq : (clientStep s (CEvent.screenStartMsg q)).1 =
        { s with peers := (mapSet s.peers q { p with screenSharing := true }) } := by
      simp [clientStep, hp]
    rw [heq]
    refine cinv_peers_update s _ h ?_ ?_
    · intro q'
      by_cases hq : q' = q
      · subst hq
        rw [mapGet_set_self]
        simp [hp]
      · rw [mapGet_set_ne _ _ _ _ hq]
    · intro q' c' hv'
      obtain ⟨p', hp', hf⟩ := h.viewerPeer q' c' hv'
      by_cases hq : q' = q
      · subst hq
        rw [hp] at hp'
        cases hp'
        exact ⟨{ p with screenSharing := true }, mapGet_set_self _ _ _, hf⟩
      · exact ⟨p', by rw [mapGet_set_ne _ _ _ _ hq]; exact hp', hf⟩

/-- The welcome roster fold preserves the invariant. -/
theorem cinv_welcome_fold (roster : List (String × String × Bool)) :
    ∀ (acc : ClientState × List COut), CInv acc.1 →
      CInv (roster.foldl (fun acc e =>
        let r := connectToPeer acc.1 e.1 e.2.1 true e.2.2
        (r.1, acc.2 ++ r.2)) acc).1 := by
  induction roster with
  | nil => intro acc h; exact h
  | cons e roster ih =>
    intro acc h
    exact ih _ (cinv_connectToPeer acc.1 e.1 e.2.1 true e.2.2 h)

/-- One client step preserves the invariant, assuming the relay ordering
guarantee that a leave is only delivered after the screen-stop of that
peer has released its viewer connection. -/
theorem cinv_clientStep (s : ClientState) (e : CEvent) (h : CInv s)
    (hleave : ∀ q, e = CEvent.leave q →
      mapGet s.screenViewerConnections q = none) :
    CInv (clientStep s e).1 := by
  cases e with
  | welcome roster => exact cinv_welcome_fold roster (s, []) h
  | join peerId nm => exact cinv_connectToPeer s peerId nm false false h
  | leave peerId =>
    exact cinv_disconnectFromPeer s peerId h (hleave peerId rfl)
  | offerMsg src =>
    cases hg : mapGet s.connections src with
    | some c => simpa [clientStep, hg] using h
    | none =>
      cases hp : mapGet s.peers src with
      | none => simpa [clientStep, hg, hp] using h
      | some p =>
        have heq : (clientStep s (CEvent.offerMsg src)).1 =
            (connectToPeer s src p.name false false).1 := by
          simp [clientStep, hg, hp]
        rw [heq]
        exact cinv_connectToPeer s src p.name false false h
  | screenStartMsg q => exact cinv_screenStartMsg s q h
  | screenStopMsg q => exact cinv_screenStopMsg s q h
  | screenSubscribeMsg src => exact cinv_screenSubscribeMsg s src h
  | screenUnsubscribeMsg src => exact cinv_screenUnsubscribeMsg s src h
  | toggleScreenShare ok => exact cinv_toggleScreenShare s ok h
  | screenEnded => exact cinv_screenEnded s h
  | subscribeToScreen q => exact cinv_subscribeToScreen s q h

/-- The invariant of the initial client state. -/
theorem cinv_init : CInv initClientState := by
  refine ⟨?_, ?_, ?_, ?_, ?_, ?_, ?_, ?_, ?_⟩ <;>
    simp [initClientState, mapGet]

/-- Running the client from an invariant state over a leave-consistent
event list keeps the invariant. -/
theorem cinv_runClientFrom : ∀ (events : List CEvent) (s : ClientState),
    CInv s →
    (∀ n q, events.get? n = some (CEvent.leave q) →
      mapGet (runClientFrom s (events.take n)).screenViewerConnections q = none) →
    CInv (runClientFrom s events) := by
  intro events
  induction events with
  | nil => intro s h _; exact h
  | cons e rest ih =>
    intro s h hwf
    have h0 : ∀ q, e = CEvent.leave q →
        mapGet s.screenViewerConnections q = none := by
      intro q he
      have := hwf 0 q (by rw [he]; rfl)
      simpa [runClientFrom] using this
    have hstep : CInv (clientStep s e).1 := cinv_clientStep s e h h0
    have hrest : ∀ n q, rest.get? n = some (CEvent.leave q) →
        mapGet (runClientFrom (clientStep s e).1
          (rest.take n)).screenViewerConnections q = none := by
      intro n q hn
      have := hwf (n + 1) q (by simpa using hn)
      simpa [runClientFrom, List.take_succ_cons] using this
    exact ih _ hstep hrest

/-- C3: at most one connection per pair.  Over every event sequence in
which a leave arrives only after the screen-stop of that peer has
released its viewer connection (the relay broadcasts them in that order
on one ordered channel), the client holds at most one open mesh
connection per remote peer, at most one open sharer-side screen
connection per subscriber, and at most one open viewer connection per
sharer.  Moreover addSubscriber replaces rather than accumulates: with a
stream and an existing connection for that subscriber, the old connection
is closed, the fresh one (with a strictly newer id) is the only one
stored, and the two never coexist. -/
theorem at_most_one_connection_per_pair (events : List CEvent)
    (hwf : ∀ n q, events.get? n = some (CEvent.leave q) →
      mapGet (runClient (events.take n)).screenViewerConnections q = none) :
    ((∀ q c1 c2, (c1, ConnTag.mesh q) ∈ (runClient events).openConns →
        (c2, ConnTag.mesh q) ∈ (runClient events).openConns → c1 = c2)
      ∧ (∀ q c1 c2, (c1, ConnTag.shareOut q) ∈ (runClient events).openConns →
        (c2, ConnTag.shareOut q) ∈ (runClient events).openConns → c1 = c2)
      ∧ (∀ q c1 c2, (c1, ConnTag.viewer q) ∈ (runClient events).openConns →
        (c2, ConnTag.viewer q) ∈ (runClient events).openConns → c1 = c2))
    ∧ (∀ (s : ClientState) (m : Manager) (src : String) (c : Nat),
        m.hasStream = true → mapGet m.subscribers src = some c → c < s.nextConn →
        (s.nextConn, ConnTag.shareOut src) ∈ (mgrAddSubscriber s m src).1.openConns
        ∧ (c, ConnTag.shareOut src) ∉ (mgrAddSubscriber s m src).1.openConns
        ∧ c ≠ s.nextConn
        ∧ mapGet (mgrAddSubscriber s m src).2.1.subscribers src = some s.nextConn) := by
  constructor
  · have h : CInv (runClient events) :=
      cinv_runClientFrom events initClientState cinv_init hwf
    refine ⟨?_, ?_, ?_⟩
    · intro q c1 c2 h1 h2
      have e1 := (h.meshCorr q c1).mpr h1
      have e2 := (h.meshCorr q c2).mpr h2
      rw [e1] at e2
      cases e2
      rfl
    · intro q c1 c2 h1 h2
      obtain ⟨m1, hm1, hs1⟩ := (h.shareCorr q c1).mpr h1
      obtain ⟨m2, hm2, hs2⟩ := (h.shareCorr q c2).mpr h2
      rw [hm1] at hm2
      cases hm2
      rw [hs1] at hs2
      cases hs2
      rfl
    · intro q c1 c2 h1 h2
      have e1 := (h.viewCorr q c1).mpr h1
      have e2 := (h.viewCorr q c2).mpr h2
      rw [e1] at e2
      cases e2
      rfl
  · intro s m src c hstream hsub hfresh
    have heq : (mgrAddSubscriber s m src).1.openConns =
        (s.openConns.filter (fun p => p.1 != c)) ++
          [(s.nextConn, ConnTag.shareOut src)] := by
      simp [mgrAddSubscriber, hstream, hsub, closeConn, newConn]
    have heq2 : (mgrAddSubscriber s m src).2.1.subscribers =
        mapSet m.subscribers src s.nextConn := by
      simp [mgrAddSubscriber, hstream, hsub, closeConn, newConn]
    refine ⟨?_, ?_, fun hce => absurd (hce ▸ hfresh) (lt_irrefl _), ?_⟩
    · rw [heq]
      exact List.mem_append.mpr (Or.inr (by simp))
    · rw [heq]
      intro hmem
      rcases List.mem_append.mp hmem with h1 | h1
      · simp [List.mem_filter] at h1
      · simp at h1
        exact absurd (h1 ▸ hfresh) (lt_irrefl _)
    · rw [heq2]
      exact mapGet_set_self _ _ _

/-- Witness for at_most_one_connection_per_pair: a small room where this
client joined one peer, started sharing and accepted a subscription, and
a concrete addSubscriber replacement. -/
theorem at_most_one_connection_per_pair_witness :
    ((0, ConnTag.mesh "b") ∈
      (runClient [CEvent.join "b" "n", CEvent.toggleScreenShare true,
        CEvent.screenSubscribeMsg "b"]).openConns)
    ∧ ((4, ConnTag.shareOut "x") ∈
        (mgrAddSubscriber ⟨[], [], true, some ⟨true, [("x", 3)]⟩, [],
          [(3, ConnTag.shareOut "x")], 4⟩ ⟨true, [("x", 3)]⟩ "x").1.openConns
      ∧ (3, ConnTag.shareOut "x") ∉
        (mgrAddSubscriber ⟨[], [], true, some ⟨true, [("x", 3)]⟩, [],
          [(3, ConnTag.shareOut "x")], 4⟩ ⟨true, [("x", 3)]⟩ "x").1.openConns
      ∧ (3 : Nat) ≠ 4
      ∧ mapGet (mgrAddSubscriber ⟨[], [], true, some ⟨true, [("x", 3)]⟩, [],
          [(3, ConnTag.shareOut "x")], 4⟩ ⟨true, [("x", 3)]⟩ "x").2.1.subscribers
          "x" = some 4) := by
  have hwf : ∀ n q, ([CEvent.join "b" "n", CEvent.toggleScreenShare true,
      CEvent.screenSubscribeMsg "b"] : List CEvent).get? n =
        some (CEvent.leave q) →
      mapGet (runClient (([CEvent.join "b" "n", CEvent.toggleScreenShare true,
        CEvent.screenSubscribeMsg "b"] : List CEvent).take n)).screenViewerConnections
        q = none := by
    intro n q hn
    match n with
    | 0 => simp at hn
    | 1 => simp at hn
    | 2 => simp at hn
    | n + 3 => simp at hn
  have h := at_most_one_connection_per_pair
    [CEvent.join "b" "n", CEvent.toggleScreenShare true,
      CEvent.screenSubscribeMsg "b"] hwf
  have hmem : (0, ConnTag.mesh "b") ∈
      (runClient [CEvent.join "b" "n", CEvent.toggleScreenShare true,
        CEvent.screenSubscribeMsg "b"]).openConns := by decide
  have hrep := h.2 ⟨[], [], true, some ⟨true, [("x", 3)]⟩, [],
    [(3, ConnTag.shareOut "x")], 4⟩ ⟨true, [("x", 3)]⟩ "x" 3 rfl (by decide)
    (by decide)
  exact ⟨hmem, hrep⟩

/-- C7 counterexample: when both sides of a pair share their screens, the
client holds a sharer-side subscriber connection and a viewer connection
to the same peer at the same time.  Concretely: this client shares (peer
q subscribes to it) and simultaneously views the share of peer q, so both
roles are active for the pair at once, refuting the claim that the two
roles are never both active for the same pair. -/
theorem screen_roles_coexist_counterexample :
    (1, ConnTag.shareOut "q") ∈
      (runClient [CEvent.join "q" "n", CEvent.toggleScreenShare true,
        CEvent.screenSubscribeMsg "q", CEvent.screenStartMsg "q",
        CEvent.subscribeToScreen "q"]).openConns
    ∧ (2, ConnTag.viewer "q") ∈
      (runClient [CEvent.join "q" "n", CEvent.toggleScreenShare true,
        CEvent.screenSubscribeMsg "q", CEvent.screenStartMsg "q",
        CEvent.subscribeToScreen "q"]).openConns := by
  constructor
  · decide
  · decide

/-- C7 amended: the sharer-side role exists only while this client is
itself sharing.  Hence over every leave-consistent event sequence, when
the client is not sharing it holds no sharer-side subscriber connection
at all, and in particular never both roles toward the same peer; the two
roles can coexist only during mutual sharing. -/
theorem screen_roles_require_sharing (events : List CEvent)
    (hwf : ∀ n q, events.get? n = some (CEvent.leave q) →
      mapGet (runClient (events.take n)).screenViewerConnections q = none)
    (hns : (runClient events).screenSharing = false) :
    (∀ x ∈ (runClient events).openConns, ∀ q, x.2 ≠ ConnTag.shareOut q)
    ∧ (∀ q c c', ¬((c, ConnTag.shareOut q) ∈ (runClient events).openConns
        ∧ (c', ConnTag.viewer q) ∈ (runClient events).openConns)) := by
  have h : CInv (runClient events) :=
    cinv_runClientFrom events initClientState cinv_init hwf
  refine ⟨h.shareOnlyWhenSharing hns, ?_⟩
  rintro q c c' ⟨h1, _⟩
  exact h.shareOnlyWhenSharing hns _ h1 q rfl

/-- Witness for screen_roles_require_sharing: a client that only joined a
peer is not sharing and holds no sharer-side connection. -/
theorem screen_roles_require_sharing_witness :
    (∀ x ∈ (runClient [CEvent.join "b" "n"]).openConns,
      ∀ q, x.2 ≠ ConnTag.shareOut q)
    ∧ ¬(((0 : Nat), ConnTag.shareOut "b") ∈
          (runClient [CEvent.join "b" "n"]).openConns
        ∧ ((0 : Nat), ConnTag.viewer "b") ∈
          (runClient [CEvent.join "b" "n"]).openConns) := by
  have hwf : ∀ n q, ([CEvent.join "b" "n"] : List CEvent).get? n =
      some (CEvent.leave q) →
      mapGet (runClient (([CEvent.join "b" "n"] : List CEvent).take
        n)).screenViewerConnections q = none := by
    intro n q hn
    match n with
    | 0 => simp at hn
    | n + 1 => simp at hn
  have h := screen_roles_require_sharing [CEvent.join "b" "n"] hwf (by decide)
  exact ⟨h.1, h.2 "b" 0 0⟩

/-- C9: unsubscribing an already-unsubscribed screen-share edge is a
no-op.  removeSubscriber for a subscriber with no current connection
changes nothing (no error is possible: the operation is total), and the
subscribe-toggle for a peer whose share is not currently subscribed never
emits a screen-unsubscribe message. -/
theorem unsubscribe_idempotent (s : ClientState) (m : Manager) (q : String) :
    (mapGet m.subscribers q = none → mgrRemoveSubscriber s m q = (s, m))
    ∧ ((∀ p, mapGet s.peers q = some p → p.screenSubscribed = false) →
      ∀ o ∈ (clientStep s (CEvent.subscribeToScreen q)).2,
        o ≠ COut.screenUnsubscribeOut q) := by
  constructor
  · intro hnone
    simp [mgrRemoveSubscriber, hnone]
  · intro hflag o ho
    cases hp : mapGet s.peers q with
    | none =>
      simp [clientStep, hp] at ho
    | some p =>
      cases hshare : p.screenSharing with
      | false =>
        simp [clientStep, hp, hshare] at ho
      | true =>
        have hsubd : p.screenSubscribed = false := hflag p hp
        simp [clientStep, hp, hshare, hsubd, newConn] at ho
        rw [ho]
        intro hcontra
        cases hcontra

/-- Witness for unsubscribe_idempotent: an empty subscriber map and a
client that is not subscribed to peer b. -/
theorem unsubscribe_idempotent_witness :
    (mgrRemoveSubscriber initClientState ⟨true, []⟩ "b" =
      (initClientState, ⟨true, []⟩))
    ∧ (∀ o ∈ (clientStep initClientState (CEvent.subscribeToScreen "b")).2,
        o ≠ COut.screenUnsubscribeOut "b") := by
  have h := unsubscribe_idempotent initClientState ⟨true, []⟩ "b"
  exact ⟨h.1 rfl, h.2 (fun p hp => by simp [initClientState, mapGet] at hp)⟩

/- ===================================================================
   Decimal strings: characterization, injectivity, case stability
   =================================================================== -/

/-- The digit character of a decimal digit, as a codepoint. -/
theorem digitChar_eq_ofNat (d : Nat) (h : d < 10) :
    Nat.digitChar d = Char.ofNat (48 + d) := by
  interval_cases d <;> decide

/-- The fueled digit loop produces the reversed Mathlib digits of the
argument, prepended to the accumulator. -/
theorem toDigitsCore_eq :
    ∀ (fuel n : Nat) (ds : List Char), n < fuel →
      Nat.toDigitsCore 10 fuel n ds =
        (if n = 0 then ['0']
         else (Nat.digits 10 n).reverse.map (fun d => Char.ofNat (48 + d))) ++ ds := by
  intro fuel
  induction fuel with
  | zero => intro n ds h; cases h
  | succ f ih =>
    intro n ds h
    by_cases h0 : n = 0
    · subst h0
      simp [Nat.toDigitsCore, Nat.digitChar]
    · simp only [Nat.toDigitsCore]
      by_cases hq : n / 10 = 0
      · have hlt : n < 10 := by omega
        rw [if_pos hq, if_neg h0]
        rw [Nat.digits_def' (by norm_num : (1:Nat) < 10) (Nat.pos_of_ne_zero h0), hq]
        simp only [Nat.digits_zero, List.reverse_cons, List.reverse_nil,
          List.nil_append, List.map_cons, List.map_nil]
        rw [digitChar_eq_ofNat (n % 10) (Nat.mod_lt n (by norm_num))]
        simp
      · rw [if_neg hq]
        have hn' : n / 10 < f := by
          have h1 : n / 10 < n := Nat.div_lt_self (Nat.pos_of_ne_zero h0) (by norm_num)
          omega
        rw [ih (n / 10) (Nat.digitChar (n % 10) :: ds) hn']
        rw [if_neg hq, if_neg h0]
        rw [Nat.digits_def' (by norm_num : (1:Nat) < 10) (Nat.pos_of_ne_zero h0)]
        simp only [List.reverse_cons, List.map_append, List.map_cons, List.map_nil]
        rw [digitChar_eq_ofNat (n % 10) (Nat.mod_lt n (by norm_num))]
        simp

/-- natChars in terms of the Mathlib digits. -/
theorem natChars_eq (n : Nat) :
    natChars n = if n = 0 then ['0']
      else (Nat.digits 10 n).reverse.map (fun d => Char.ofNat (48 + d)) := by
  show Nat.toDigitsCore 10 (n + 1) n [] = _
  rw [toDigitsCore_eq (n + 1) n [] (Nat.lt_succ_self n), List.append_nil]

/-- Digit codepoints are injective below ten. -/
theorem ofNat_digit_inj : ∀ a < 10, ∀ b < 10,
    Char.ofNat (48 + a) = Char.ofNat (48 + b) → a = b := by
  decide

/-- Mapping digit lists to characters is injective. -/
theorem map_digitChars_inj :
    ∀ (l1 l2 : List Nat), (∀ d ∈ l1, d < 10) → (∀ d ∈ l2, d < 10) →
      l1.map (fun d => Char.ofNat (48 + d)) = l2.map (fun d => Char.ofNat (48 + d)) →
      l1 = l2 := by
  intro l1
  induction l1 with
  | nil =>
    intro l2 _ _ h
    cases l2 with
    | nil => rfl
    | cons b t => simp at h
  | cons a t1 ih =>
    intro l2 h1 h2 h
    cases l2 with
    | nil => simp at h
    | cons b t2 =>
      simp only [List.map_cons, List.cons.injEq] at h
      have ha : a < 10 := h1 a (List.mem_cons_self _ _)
      have hb : b < 10 := h2 b (List.mem_cons_self _ _)
      have hab : a = b := ofNat_digit_inj a ha b hb h.1
      rw [hab, ih t2 (fun d hd => h1 d (List.mem_cons_of_mem _ hd))
        (fun d hd => h2 d (List.mem_cons_of_mem _ hd)) h.2]

/-- natChars is injective: distinct numbers print differently. -/
theorem natChars_inj (m n : Nat) (h : natChars m = natChars n) : m = n := by
  rw [natChars_eq, natChars_eq] at h
  by_cases hm : m = 0 <;> by_cases hn : n = 0
  · rw [hm, hn]
  · exfalso
    rw [if_pos hm, if_neg hn] at h
    have hd := map_digitChars_inj [0] (Nat.digits 10 n).reverse (by simp)
      (fun d hd => Nat.digits_lt_base (by norm_num) (List.mem_reverse.mp hd))
      (by simpa using h)
    have hdig : Nat.digits 10 n = [0] := by
      rw [← List.reverse_reverse (Nat.digits 10 n), ← hd]
      rfl
    have h2 := Nat.ofDigits_digits 10 n
    rw [hdig] at h2
    exact hn (by rw [← h2]; simp [Nat.ofDigits])
  · exfalso
    rw [if_neg hm, if_pos hn] at h
    have hd := map_digitChars_inj (Nat.digits 10 m).reverse [0]
      (fun d hd => Nat.digits_lt_base (by norm_num) (List.mem_reverse.mp hd))
      (by simp) (by simpa using h)
    have : Nat.digits 10 m = [0] := by
      rw [← List.reverse_reverse (Nat.digits 10 m), hd]
      rfl
    have h2 := Nat.ofDigits_digits 10 m
    rw [this] at h2
    exact hm (by rw [← h2]; simp [Nat.ofDigits])
  · rw [if_neg hm, if_neg hn] at h
    have hd := map_digitChars_inj (Nat.digits 10 m).reverse (Nat.digits 10 n).reverse
      (fun d hd => Nat.digits_lt_base (by norm_num) (List.mem_reverse.mp hd))
      (fun d hd => Nat.digits_lt_base (by norm_num) (List.mem_reverse.mp hd)) h
    have : Nat.digits 10 m = Nat.digits 10 n := by
      rw [← List.reverse_reverse (Nat.digits 10 m), hd, List.reverse_reverse]
    calc m = Nat.ofDigits 10 (Nat.digits 10 m) := (Nat.ofDigits_digits 10 m).symm
    _ = Nat.ofDigits 10 (Nat.digits 10 n) := by rw [this]
    _ = n := Nat.ofDigits_digits 10 n

/-- Digit characters are already lowercase. -/
theorem charLower_digit : ∀ d < 10, charLower (Char.ofNat (48 + d)) = Char.ofNat (48 + d) := by
  decide

/-- natChars is unchanged by lowercasing. -/
theorem toLowerCase_natChars (n : Nat) : toLowerCase (natChars n) = natChars n := by
  rw [toLowerCase, natChars_eq]
  by_cases h0 : n = 0
  · rw [if_pos h0]
    decide
  · rw [if_neg h0, List.map_map]
    apply List.map_congr_left
    intro d hd
    have : d < 10 := Nat.digits_lt_base (by norm_num) (List.mem_reverse.mp hd)
    exact charLower_digit d this

/-- natChars is never empty. -/
theorem natChars_ne_nil (n : Nat) : natChars n ≠ [] := by
  rw [natChars_eq]
  by_cases h0 : n = 0
  · simp [h0]
  · rw [if_neg h0]
    simp only [ne_eq, List.map_eq_nil_iff, List.reverse_eq_nil_iff]
    exact Nat.digits_ne_nil_iff_ne_zero.mpr h0

/- ===================================================================
   Unique-name allocation: the suffix search and its guarantees
   =================================================================== -/

/-- Lowercasing distributes over append. -/
theorem toLowerCase_append (a b : JStr) :
    toLowerCase (a ++ b) = toLowerCase a ++ toLowerCase b :=
  List.map_append _ _ _

/-- Lowercasing a suffixed candidate lowers only the base: the hyphen and
the digits are fixed. -/
theorem toLowerCase_cand (b : JStr) (i : Nat) :
    toLowerCase (b ++ '-' :: natChars i) = toLowerCase b ++ '-' :: natChars i := by
  rw [toLowerCase_append]
  congr 1
  show charLower '-' :: toLowerCase (natChars i) = '-' :: natChars i
  rw [toLowerCase_natChars]
  congr 1

/-- Two suffixed candidates with different indices differ. -/
theorem cand_inj (b : JStr) (i j : Nat)
    (h : b ++ '-' :: natChars i = b ++ '-' :: natChars j) : i = j := by
  have h1 := List.append_cancel_left h
  exact natChars_inj i j (List.cons.inj h1).2

/-- A suffixed candidate never equals the base (it is strictly longer). -/
theorem cand_ne_base (a b : JStr) (i : Nat) :
    a ≠ b ++ '-' :: natChars i ∨ a.length = b.length + 1 + (natChars i).length := by
  by_cases h : a = b ++ '-' :: natChars i
  · right
    rw [h]
    simp [List.length_append]
    omega
  · left; exact h

/-- The membership content of isNameTaken. -/
theorem isNameTaken_iff (peers : List (String × JStr)) (name : JStr)
    (ex : Option String) :
    isNameTaken peers name ex = true ↔
      ∃ p ∈ peers, notExcept ex p.1 = true ∧ toLowerCase p.2 = toLowerCase name := by
  simp [isNameTaken, List.any_eq_true, Bool.and_eq_true, beq_iff_eq]

/-- The negative form of isNameTaken. -/
theorem isNameTaken_eq_false_iff (peers : List (String × JStr)) (name : JStr)
    (ex : Option String) :
    isNameTaken peers name ex = false ↔
      ∀ p ∈ peers, notExcept ex p.1 = true → toLowerCase p.2 ≠ toLowerCase name := by
  rw [← Bool.not_eq_true, isNameTaken_iff]
  constructor
  · intro h p hp hex heq
    exact h ⟨p, hp, hex, heq⟩
  · rintro h ⟨p, hp, hex, heq⟩
    exact h p hp hex heq

/-- The suffix loop returns the first free candidate in its range. -/
theorem allocLoop_first_free (peers : List (String × JStr)) (b : JStr) (clock : Nat) :
    ∀ (fuel i j : Nat), i ≤ j → j < i + fuel →
      (∀ k, i ≤ k → k < j →
        isNameTaken peers (b ++ '-' :: natChars k) none = true) →
      isNameTaken peers (b ++ '-' :: natChars j) none = false →
      allocLoop peers b clock i fuel = b ++ '-' :: natChars j := by
  intro fuel
  induction fuel with
  | zero => intro i j _ hj _ _; omega
  | succ f ih =>
    intro i j hij hj htaken hfree
    by_cases hji : j = i
    · subst hji
      simp [allocLoop, hfree]
    · have hij' : i < j := lt_of_le_of_ne hij (Ne.symm hji)
      have hti : isNameTaken peers (b ++ '-' :: natChars i) none = true :=
        htaken i le_rfl hij'
      simp only [allocLoop, hti, if_true]
      exact ih (i + 1) j hij' (by omega) (fun k hk1 hk2 => htaken k (by omega) hk2) hfree

/-- When every candidate in range is taken, the loop falls back to the
clock-derived suffix. -/
theorem allocLoop_exhaust (peers : List (String × JStr)) (b : JStr) (clock : Nat) :
    ∀ (fuel i : Nat),
      (∀ k, i ≤ k → k < i + fuel →
        isNameTaken peers (b ++ '-' :: natChars k) none = true) →
      allocLoop peers b clock i fuel = b ++ '-' :: natChars (clock % 1000) := by
  intro fuel
  induction fuel with
  | zero => intro i _; rfl
  | succ f ih =>
    intro i htaken
    have hti : isNameTaken peers (b ++ '-' :: natChars i) none = true :=
      htaken i le_rfl (by omega)
    simp only [allocLoop, hti, if_true]
    exact ih (i + 1) (fun k hk1 hk2 => htaken k (by omega) (by omega))

/-- When some candidate in range is free, the loop result is free. -/
theorem allocLoop_free_exists (peers : List (String × JStr)) (b : JStr) (clock : Nat) :
    ∀ (fuel i : Nat),
      (∃ j, i ≤ j ∧ j < i + fuel ∧
        isNameTaken peers (b ++ '-' :: natChars j) none = false) →
      isNameTaken peers (allocLoop peers b clock i fuel) none = false := by
  intro fuel
  induction fuel with
  | zero =>
    rintro i ⟨j, h1, h2, _⟩
    omega
  | succ f ih =>
    rintro i ⟨j, h1, h2, hfree⟩
    by_cases hti : isNameTaken peers (b ++ '-' :: natChars i) none = true
    · simp only [allocLoop, hti, if_true]
      refine ih (i + 1) ⟨j, ?_, by omega, hfree⟩
      rcases Nat.eq_or_lt_of_le h1 with h | h
      · subst h; rw [hfree] at hti; cases hti
      · omega
    · have hfi : isNameTaken peers (b ++ '-' :: natChars i) none = false :=
        Bool.eq_false_iff.mpr hti
      simp [allocLoop, hfi]

/-- Pigeonhole core: if the base and all 998 suffixed candidates (indices
2 through 999) are taken, the roster holds at least 999 case-insensitively
distinct names, contradicting a 998-peer bound. -/
theorem names_pigeonhole (peers : List (String × JStr)) (tb : JStr)
    (hlen : peers.length ≤ 998)
    (ht : isNameTaken peers tb none = true)
    (htk : ∀ j, 2 ≤ j → j < 1000 →
      isNameTaken peers (tb ++ '-' :: natChars j) none = true) :
    False := by
  have hLnodup : (toLowerCase tb ::
      (List.range' 2 998).map (fun j => toLowerCase tb ++ '-' :: natChars j)).Nodup := by
    rw [List.nodup_cons]
    constructor
    · intro hx
      rw [List.mem_map] at hx
      obtain ⟨j, _, heq⟩ := hx
      have hlenx := congrArg List.length heq
      simp [List.length_append] at hlenx
    · refine List.Nodup.map_on ?_ (List.nodup_range' 2 998)
      intro x _ y _ hxy
      have h1 := List.append_cancel_left hxy
      exact natChars_inj x y (List.cons.inj h1).2
  have hLsub : ∀ x ∈ (toLowerCase tb ::
      (List.range' 2 998).map (fun j => toLowerCase tb ++ '-' :: natChars j)),
      x ∈ peers.map (fun p => toLowerCase p.2) := by
    intro x hx
    rw [List.mem_cons] at hx
    rcases hx with hx | hx
    · obtain ⟨p, hp, _, hlow⟩ := (isNameTaken_iff peers tb none).mp ht
      subst hx
      exact List.mem_map.mpr ⟨p, hp, hlow⟩
    · rw [List.mem_map] at hx
      obtain ⟨j, hj, heq⟩ := hx
      have hjr : 2 ≤ j ∧ j < 1000 := by
        have := List.mem_range'_1.mp hj
        omega
      obtain ⟨p, hp, _, hlow⟩ :=
        (isNameTaken_iff peers (tb ++ '-' :: natChars j) none).mp (htk j hjr.1 hjr.2)
      refine List.mem_map.mpr ⟨p, hp, ?_⟩
      rw [hlow, toLowerCase_cand, heq]
  have h1 : (toLowerCase tb ::
      (List.range' 2 998).map (fun j => toLowerCase tb ++ '-' :: natChars j)).toFinset.card
      = 999 := by
    rw [List.toFinset_card_of_nodup hLnodup]
    simp
  have h2 : (toLowerCase tb ::
      (List.range' 2 998).map (fun j => toLowerCase tb ++ '-' :: natChars j)).toFinset ⊆
      (peers.map (fun p => toLowerCase p.2)).toFinset := by
    intro x hx
    rw [List.mem_toFinset] at hx ⊢
    exact hLsub x hx
  have h3 := Finset.card_le_card h2
  have h4 : (peers.map (fun p => toLowerCase p.2)).toFinset.card ≤ peers.length := by
    refine le_trans (List.toFinset_card_le _) ?_
    simp
  omega

/-- With at most 998 peers in the roster, allocateUniqueName always
returns a free name. -/
theorem allocate_free (peers : List (String × JStr)) (base : Option JStr)
    (g : Nat × Nat) (clock : Nat) (hlen : peers.length ≤ 998) :
    isNameTaken peers (allocateUniqueName peers base g clock) none = false := by
  have core : ∀ tb : JStr,
      isNameTaken peers
        (if isNameTaken peers tb none then allocLoop peers tb clock 2 998 else tb)
        none = false := by
    intro tb
    by_cases ht : isNameTaken peers tb none = true
    · rw [if_pos ht]
      apply allocLoop_free_exists
      by_contra hnone
      push_neg at hnone
      refine names_pigeonhole peers tb hlen ht ?_
      intro j h1 h2
      have := hnone j h1 (by omega)
      cases hb : isNameTaken peers (tb ++ '-' :: natChars j) none
      · exact absurd hb this
      · rfl
    · rw [if_neg ht]
      exact Bool.eq_false_iff.mpr ht
  simp only [allocateUniqueName]
  exact core _

/-- Setting a key absent from the map appends the new entry. -/
theorem mapSet_append_of_not_mem {α : Type} (m : List (String × α)) (k : String)
    (v : α) (h : k ∉ m.map Prod.fst) : mapSet m k v = m ++ [(k, v)] := by
  induction m with
  | nil => rfl
  | cons p rest ih =>
    simp only [List.map_cons, List.mem_cons] at h
    push_neg at h
    simp only [List.cons_append, mapSet, List.append_eq]
    rw [if_neg (Ne.symm h.1), ih h.2]

/-- Setting the key of the last entry rewrites that entry in place when
the key does not occur earlier. -/
theorem mapSet_append_last {α : Type} (m : List (String × α)) (k : String)
    (w v : α) (h : k ∉ m.map Prod.fst) :
    mapSet (m ++ [(k, w)]) k v = m ++ [(k, v)] := by
  induction m with
  | nil => simp [mapSet]
  | cons p rest ih =>
    simp only [List.map_cons, List.mem_cons] at h
    push_neg at h
    simp only [List.cons_append, mapSet, List.append_eq]
    rw [if_neg (Ne.symm h.1), ih h.2]

/-- Lookup of the last entry when its key does not occur earlier. -/
theorem mapGet_append_last {α : Type} (m : List (String × α)) (k : String)
    (w : α) (h : k ∉ m.map Prod.fst) :
    mapGet (m ++ [(k, w)]) k = some w := by
  induction m with
  | nil => simp [mapGet]
  | cons p rest ih =>
    simp only [List.map_cons, List.mem_cons] at h
    push_neg at h
    simp only [List.cons_append, mapGet, List.append_eq]
    rw [if_neg (Ne.symm h.1)]
    exact ih h.2

/-- Running the relay over an appended trace runs the suffix from the
state the prefix reaches. -/
theorem runRelayFrom_append (s : ServerState) (l1 l2 : List REvent) :
    runRelayFrom s (l1 ++ l2) = runRelayFrom (runRelayFrom s l1) l2 :=
  List.foldl_append _ _ _ _

/- ===================================================================
   C1 counterexample scaffolding: a room that exhausts the suffix search
   =================================================================== -/

/-- The proposed display name of the counterexample renames. -/
def riverStr : JStr := String.toList "river"

/-- The name held by the i-th renamed peer: river, river-2, river-3, ... -/
def riverName : Nat → JStr
  | 0 => riverStr
  | j + 1 => riverStr ++ '-' :: natChars (j + 2)

/-- The generated name every connect receives (oracle indices (0,0)). -/
def quietB : JStr := String.toList "Quiet Ember"

/-- The connection id of the k-th peer of the counterexample trace. -/
def ceId (k : Nat) : String := String.mk ('p' :: natChars k)

/-- The roster after the first j peers have joined and renamed. -/
def ceRoster (j : Nat) : List (String × JStr) :=
  (List.range j).map (fun i => (ceId i, riverName i))

/-- A rename-request to river from the k-th peer at the given clock. -/
def riverRename (k : Nat) (clock : Nat) : REvent :=
  REvent.message (ceId k) (some (CMsg.renameRequest riverStr)) (0, 0) (0, 0) clock

/-- The first 2j events of the counterexample trace: each peer connects
and immediately renames to river. -/
def ceTrace : Nat → List REvent
  | 0 => []
  | j + 1 => ceTrace j ++ [REvent.connect (ceId j) (0, 0) 0, riverRename j 0]

/-- The full counterexample trace: 999 peers join and rename to river,
then the last peer renames to river again at Date.now() mod 1000 = 500. -/
def ceFull : List REvent := ceTrace 999 ++ [riverRename 998 500]

theorem sanitize_generate_00 : sanitizeName (0, 0) (generateName 0 0) = quietB := by
  decide

theorem sanitize_river : sanitizeName (0, 0) riverStr = riverStr := by
  decide

theorem toLowerCase_riverStr : toLowerCase riverStr = riverStr := by
  decide

theorem toLowerCase_quietB : toLowerCase quietB = String.toList "quiet ember" := by
  decide

theorem toLowerCase_riverName (i : Nat) :
    toLowerCase (riverName i) = riverName i := by
  match i with
  | 0 => exact toLowerCase_riverStr
  | j + 1 =>
    show toLowerCase (riverStr ++ '-' :: natChars (j + 2)) = _
    rw [toLowerCase_append, toLowerCase_riverStr]
    show riverStr ++ toLowerCase ('-' :: natChars (j + 2)) = _
    have : toLowerCase ('-' :: natChars (j + 2)) = '-' :: natChars (j + 2) := by
      show charLower '-' :: toLowerCase (natChars (j + 2)) = _
      rw [toLowerCase_natChars]
      rfl
    rw [this]
    rfl

/-- Every river-family name starts with the letter r. -/
theorem riverName_cons (i : Nat) : ∃ t, riverName i = 'r' :: t := by
  match i with
  | 0 => exact ⟨String.toList "iver", rfl⟩
  | j + 1 => exact ⟨String.toList "iver" ++ '-' :: natChars (j + 2), rfl⟩

theorem riverName_inj (a b : Nat) (h : riverName a = riverName b) : a = b := by
  match a, b with
  | 0, 0 => rfl
  | 0, b + 1 =>
    exfalso
    have hl := congrArg List.length h
    simp only [riverName, List.length_append, List.length_cons] at hl
    simp only [riverStr] at hl
    simp at hl
  | a + 1, 0 =>
    exfalso
    have hl := congrArg List.length h
    simp only [riverName, List.length_append, List.length_cons] at hl
    simp only [riverStr] at hl
    simp at hl
  | a + 1, b + 1 =>
    simp only [riverName] at h
    have h1 := List.append_cancel_left h
    have := natChars_inj (a + 2) (b + 2) (List.cons.inj h1).2
    omega

theorem ceId_inj (a b : Nat) (h : ceId a = ceId b) : a = b := by
  have h1 := congrArg String.data h
  exact natChars_inj a b (List.cons.inj h1).2

/-- ids past the roster length are fresh. -/
theorem ceId_not_mem (j k : Nat) (hjk : j ≤ k) :
    ceId k ∉ (ceRoster j).map Prod.fst := by
  intro hmem
  simp only [ceRoster, List.map_map, List.mem_map, List.mem_range] at hmem
  obtain ⟨i, hi, heq⟩ := hmem
  have : i = k := ceId_inj i k heq
  omega

theorem mem_ceRoster (i j : Nat) (hij : i < j) :
    (ceId i, riverName i) ∈ ceRoster j := by
  simp only [ceRoster, List.mem_map, List.mem_range]
  exact ⟨i, hij, rfl⟩

theorem ceRoster_elim (j : Nat) (p : String × JStr) (hp : p ∈ ceRoster j) :
    ∃ i, i < j ∧ p = (ceId i, riverName i) := by
  simp only [ceRoster, List.mem_map, List.mem_range] at hp
  obtain ⟨i, hi, heq⟩ := hp
  exact ⟨i, hi, heq.symm⟩

theorem ceRoster_succ (j : Nat) :
    ceRoster (j + 1) = ceRoster j ++ [(ceId j, riverName j)] := by
  simp [ceRoster, List.range_succ]

theorem cons_ne_cons_head {a b : Char} (t1 t2 : JStr) (h : a ≠ b) :
    a :: t1 ≠ b :: t2 :=
  fun hc => h (List.cons.inj hc).1

theorem toLowerCase_riverCand (m : Nat) :
    toLowerCase (riverStr ++ '-' :: natChars m) = riverStr ++ '-' :: natChars m := by
  rw [toLowerCase_append, toLowerCase_riverStr]
  congr 1
  show charLower '-' :: toLowerCase (natChars m) = _
  rw [toLowerCase_natChars, show charLower '-' = '-' from by decide]

theorem riverName_eq_cand (i m : Nat)
    (h : riverName i = riverStr ++ '-' :: natChars m) : i + 1 = m := by
  match i with
  | 0 =>
    exfalso
    have hl := congrArg List.length h
    rw [List.length_append, List.length_cons] at hl
    have hpos := List.length_pos.mpr (natChars_ne_nil m)
    have hself : (riverName 0).length = riverStr.length := rfl
    rw [hself] at hl
    omega
  | j + 1 =>
    have h0 : riverStr ++ '-' :: natChars (j + 2) = riverStr ++ '-' :: natChars m := h
    have h1 := List.append_cancel_left h0
    have := natChars_inj (j + 2) m (List.cons.inj h1).2
    omega

/-- Any roster containing peer 0 (named river) makes river taken, for
every exclusion that does not except peer 0. -/
theorem river_taken_gen (m : List (String × JStr))
    (hmem : (ceId 0, riverName 0) ∈ m) (ex : Option String)
    (hex : notExcept ex (ceId 0) = true) :
    isNameTaken m riverStr ex = true := by
  rw [isNameTaken_iff]
  refine ⟨(ceId 0, riverName 0), hmem, hex, ?_⟩
  rw [toLowerCase_riverName, toLowerCase_riverStr]
  rfl

/-- Suffixed candidates up to the roster size are taken: peer k-1 holds
river-k. -/
theorem cand_taken (j k : Nat) (h1 : 2 ≤ k) (h2 : k ≤ j)
    (m2 : List (String × JStr)) :
    isNameTaken (ceRoster j ++ m2) (riverStr ++ '-' :: natChars k) none = true := by
  rw [isNameTaken_iff]
  refine ⟨(ceId (k - 1), riverName (k - 1)),
    List.mem_append_left _ (mem_ceRoster (k - 1) j (by omega)), rfl, ?_⟩
  rw [toLowerCase_riverName, toLowerCase_riverCand]
  have hk : k - 1 = (k - 2) + 1 := by omega
  rw [hk]
  show riverStr ++ '-' :: natChars ((k - 2) + 2) = _
  have : (k - 2) + 2 = k := by omega
  rw [this]

/-- The candidate river-m is free when no peer of the roster plus the
just-joined quiet peer can hold it. -/
theorem cand_free (j m : Nat) (hm : ∀ i, i < j → i + 1 ≠ m) :
    isNameTaken (ceRoster j ++ [(ceId j, quietB)])
      (riverStr ++ '-' :: natChars m) none = false := by
  rw [isNameTaken_eq_false_iff]
  intro p hp _
  rw [toLowerCase_riverCand]
  rcases List.mem_append.mp hp with hp | hp
  · obtain ⟨i, hi, rfl⟩ := ceRoster_elim j p hp
    rw [toLowerCase_riverName]
    intro hcontra
    exact hm i hi (riverName_eq_cand i m hcontra)
  · rw [List.mem_singleton] at hp
    subst hp
    show toLowerCase quietB ≠ _
    rw [toLowerCase_quietB,
      show riverStr ++ '-' :: natChars m =
        'r' :: (String.toList "iver" ++ '-' :: natChars m) from rfl,
      show String.toList "quiet ember" = 'q' :: String.toList "uiet ember" from rfl]
    exact cons_ne_cons_head _ _ (by decide)

/-- The generated name is free against any river-family roster. -/
theorem quiet_free (j : Nat) : isNameTaken (ceRoster j) quietB none = false := by
  rw [isNameTaken_eq_false_iff]
  intro p hp _
  obtain ⟨i, hi, rfl⟩ := ceRoster_elim j p hp
  show toLowerCase (riverName i) ≠ toLowerCase quietB
  rw [toLowerCase_riverName, toLowerCase_quietB]
  obtain ⟨t, ht⟩ := riverName_cons i
  rw [ht, show String.toList "quiet ember" = 'q' :: String.toList "uiet ember" from rfl]
  exact cons_ne_cons_head _ _ (by decide)

/-- Connects always receive the generated name against a river-family
roster. -/
theorem allocate_quiet (j : Nat) :
    allocateUniqueName (ceRoster j) none (0, 0) 0 = quietB := by
  have hrfl : allocateUniqueName (ceRoster j) none (0, 0) 0 =
      if isNameTaken (ceRoster j) (sanitizeName (0, 0) (generateName 0 0)) none then
        allocLoop (ceRoster j) (sanitizeName (0, 0) (generateName 0 0)) 0 2 998
      else sanitizeName (0, 0) (generateName 0 0) := rfl
  rw [hrfl, sanitize_generate_00, quiet_free j]
  simp

/-- allocateUniqueName on a nonempty proposed base. -/
theorem allocateUniqueName_some (peers : List (String × JStr)) (b : JStr)
    (hb : b ≠ []) (g : Nat × Nat) (clock : Nat) :
    allocateUniqueName peers (some b) g clock =
      if isNameTaken peers (sanitizeName g b) none then
        allocLoop peers (sanitizeName g b) clock 2 998
      else sanitizeName g b := by
  simp only [allocateUniqueName, if_neg hb]

/-- The connect step of the counterexample trace. -/
theorem onConnect_ceRoster (j : Nat) :
    (onConnect ⟨ceRoster j, []⟩ (ceId j) (0, 0) 0).1 =
      ⟨ceRoster j ++ [(ceId j, quietB)], []⟩ := by
  have hrfl : (onConnect ⟨ceRoster j, []⟩ (ceId j) (0, 0) 0).1 =
      ⟨mapSet (ceRoster j) (ceId j) (allocateUniqueName (ceRoster j) none (0, 0) 0),
        []⟩ := rfl
  rw [hrfl, allocate_quiet, mapSet_append_of_not_mem _ _ _ (ceId_not_mem j j le_rfl)]

/-- The rename branch of onMessage when the sender is known and the
disambiguated name differs from the current one: the roster entry is
rewritten. -/
theorem onMessage_rename_set (s : ServerState) (sender : String) (raw : JStr)
    (g g2 : Nat × Nat) (clock : Nat) (current : JStr)
    (hget : mapGet s.peers sender = some current)
    (hne : renameUnique s sender (sanitizeName g raw) g2 clock ≠ current) :
    (onMessage s sender (some (CMsg.renameRequest raw)) g g2 clock).1 =
      { s with peers :=
          mapSet s.peers sender (renameUnique s sender (sanitizeName g raw) g2 clock) } := by
  simp only [onMessage]
  rw [hget]
  simp [hne]

/-- The disambiguated name of the j-th rename of the counterexample
trace: river for the first peer, river-(j+1) afterwards. -/
theorem renameUnique_ce (j : Nat) (hj : j ≤ 998) :
    renameUnique ⟨ceRoster j ++ [(ceId j, quietB)], []⟩ (ceId j)
      (sanitizeName (0, 0) riverStr) (0, 0) 0 = riverName j := by
  rw [sanitize_river]
  match j, hj with
  | 0, _ => decide
  | j + 1, hj =>
    have hmem : (ceId 0, riverName 0) ∈ ceRoster (j + 1) ++ [(ceId (j + 1), quietB)] :=
      List.mem_append_left _ (mem_ceRoster 0 (j + 1) (by omega))
    have hne0 : ceId 0 ≠ ceId (j + 1) := fun h => by
      have := ceId_inj 0 (j + 1) h
      omega
    have hex : notExcept (some (ceId (j + 1))) (ceId 0) = true := by
      show (ceId 0 != ceId (j + 1)) = true
      exact bne_iff_ne.mpr hne0
    have htk := river_taken_gen _ hmem (some (ceId (j + 1))) hex
    have hrfl : renameUnique ⟨ceRoster (j + 1) ++ [(ceId (j + 1), quietB)], []⟩
        (ceId (j + 1)) riverStr (0, 0) 0 =
        if isNameTaken (ceRoster (j + 1) ++ [(ceId (j + 1), quietB)]) riverStr
            (some (ceId (j + 1))) then
          allocateUniqueName (ceRoster (j + 1) ++ [(ceId (j + 1), quietB)])
            (some riverStr) (0, 0) 0
        else riverStr := rfl
    rw [hrfl, htk, if_pos rfl,
      allocateUniqueName_some _ _ (by decide) _ _, sanitize_river,
      river_taken_gen _ hmem none rfl, if_pos rfl]
    have hloop : allocLoop (ceRoster (j + 1) ++ [(ceId (j + 1), quietB)]) riverStr 0 2 998 =
        riverStr ++ '-' :: natChars (j + 2) := by
      refine allocLoop_first_free _ _ _ 998 2 (j + 2) (by omega) (by omega) ?_ ?_
      · intro k hk1 hk2
        exact cand_taken (j + 1) k hk1 (by omega) _
      · exact cand_free (j + 1) (j + 2) (fun i hi => by omega)
    rw [hloop]
    rfl

/-- The rename step of the counterexample trace. -/
theorem rename_step (j : Nat) (hj : j ≤ 998) :
    (onMessage ⟨ceRoster j ++ [(ceId j, quietB)], []⟩ (ceId j)
        (some (CMsg.renameRequest riverStr)) (0, 0) (0, 0) 0).1 =
      ⟨ceRoster (j + 1), []⟩ := by
  have hget : mapGet (ceRoster j ++ [(ceId j, quietB)]) (ceId j) = some quietB :=
    mapGet_append_last _ _ _ (ceId_not_mem j j le_rfl)
  have huniq := renameUnique_ce j hj
  have hneq : riverName j ≠ quietB := by
    obtain ⟨t, ht⟩ := riverName_cons j
    rw [ht, show quietB = 'Q' :: String.toList "uiet Ember" from rfl]
    exact cons_ne_cons_head _ _ (by decide)
  rw [onMessage_rename_set _ _ _ _ _ _ quietB hget (by rw [huniq]; exact hneq)]
  show (⟨mapSet (ceRoster j ++ [(ceId j, quietB)]) (ceId j) _, []⟩ : ServerState) = _
  rw [huniq, mapSet_append_last _ _ _ _ (ceId_not_mem j j le_rfl), ← ceRoster_succ]

/-- The state after the first j peers of the counterexample trace have
joined and renamed. -/
theorem ceTrace_state : ∀ j, j ≤ 999 → runRelay (ceTrace j) = ⟨ceRoster j, []⟩ := by
  intro j
  induction j with
  | zero => intro _; rfl
  | succ j ih =>
    intro hj
    show runRelayFrom initRelayState (ceTrace j ++ [_, _]) = _
    rw [runRelayFrom_append]
    have hstate : runRelayFrom initRelayState (ceTrace j) = ⟨ceRoster j, []⟩ :=
      ih (by omega)
    rw [hstate]
    show (relayStep (relayStep ⟨ceRoster j, []⟩ (REvent.connect (ceId j) (0, 0) 0)).1
      (riverRename j 0)).1 = _
    show (relayStep (onConnect ⟨ceRoster j, []⟩ (ceId j) (0, 0) 0).1 (riverRename j 0)).1 = _
    rw [onConnect_ceRoster]
    show (onMessage ⟨ceRoster j ++ [(ceId j, quietB)], []⟩ (ceId j)
      (some (CMsg.renameRequest riverStr)) (0, 0) (0, 0) 0).1 = _
    exact rename_step j (by omega)


/-- A single rename-to-river event, run from any state. -/
theorem runRelayFrom_riverRename (s : ServerState) (k c : Nat) :
    runRelayFrom s [riverRename k c] =
      (onMessage s (ceId k) (some (CMsg.renameRequest riverStr)) (0, 0) (0, 0) c).1 :=
  rfl

/-- The final rename against any roster where peer 0 holds river and
every suffixed candidate river-2 ... river-999 is taken: the search
exhausts and the clock fallback river-500 is assigned. -/
theorem final_step_sym (R : List (String × JStr)) (cur : JStr)
    (hget : mapGet R (ceId 998) = some cur)
    (hmem : (ceId 0, riverName 0) ∈ R)
    (htaken : ∀ k, 2 ≤ k → k < 1000 →
      isNameTaken R (riverStr ++ '-' :: natChars k) none = true)
    (hne : riverName 499 ≠ cur) :
    (onMessage ⟨R, []⟩ (ceId 998)
        (some (CMsg.renameRequest riverStr)) (0, 0) (0, 0) 500).1 =
      ⟨mapSet R (ceId 998) (riverName 499), []⟩ := by
  have hex : notExcept (some (ceId 998)) (ceId 0) = true := by
    show (ceId 0 != ceId 998) = true
    refine bne_iff_ne.mpr (fun h => ?_)
    have := ceId_inj 0 998 h
    omega
  have htk1 := river_taken_gen R hmem (some (ceId 998)) hex
  have htk2 := river_taken_gen R hmem none rfl
  have huniq : renameUnique ⟨R, []⟩ (ceId 998)
      (sanitizeName (0, 0) riverStr) (0, 0) 500 = riverName 499 := by
    rw [sanitize_river]
    have hrfl : renameUnique ⟨R, []⟩ (ceId 998) riverStr (0, 0) 500 =
        if isNameTaken R riverStr (some (ceId 998)) then
          allocateUniqueName R (some riverStr) (0, 0) 500
        else riverStr := rfl
    rw [hrfl, htk1, if_pos rfl, allocateUniqueName_some _ _ (by decide) _ _,
      sanitize_river, htk2, if_pos rfl]
    have hloop := allocLoop_exhaust R riverStr 500 998 2
      (fun k hk1 hk2 => htaken k hk1 (by omega))
    rw [hloop]
    have h500 : (500 : Nat) % 1000 = 500 := by omega
    rw [h500, show (499 : Nat) = 498 + 1 from rfl]
    rfl
  rw [onMessage_rename_set ⟨R, []⟩ (ceId 998) riverStr (0, 0) (0, 0) 500 cur hget
    (by rw [huniq]; exact hne)]
  rw [huniq]

/-- The state after the full counterexample trace: peer 998 ends up with
river-500, the name peer 499 already holds. -/
theorem ceFull_state :
    runRelay ceFull = ⟨ceRoster 998 ++ [(ceId 998, riverName 499)], []⟩ := by
  have hget : mapGet (ceRoster 999) (ceId 998) = some (riverName 998) := by
    have h := mapGet_append_last (ceRoster 998) (ceId 998) (riverName 998)
      (ceId_not_mem 998 998 le_rfl)
    rw [← ceRoster_succ 998] at h
    exact h
  have hmem : (ceId 0, riverName 0) ∈ ceRoster 999 := mem_ceRoster 0 999 (by omega)
  have htaken : ∀ k, 2 ≤ k → k < 1000 →
      isNameTaken (ceRoster 999) (riverStr ++ '-' :: natChars k) none = true := by
    intro k hk1 hk2
    have h := cand_taken 999 k hk1 (by omega) []
    rwa [List.append_nil] at h
  have hne : riverName 499 ≠ riverName 998 := fun h => by
    have := riverName_inj 499 998 h
    omega
  have e5 : mapSet (ceRoster 999) (ceId 998) (riverName 499) =
      ceRoster 998 ++ [(ceId 998, riverName 499)] := by
    have h := mapSet_append_last (ceRoster 998) (ceId 998) (riverName 998)
      (riverName 499) (ceId_not_mem 998 998 le_rfl)
    rw [← ceRoster_succ 998] at h
    exact h
  have e1 : runRelay ceFull =
      runRelayFrom (runRelayFrom initRelayState (ceTrace 999)) [riverRename 998 500] :=
    runRelayFrom_append initRelayState (ceTrace 999) [riverRename 998 500]
  refine e1.trans ?_
  refine (congrArg (fun s => runRelayFrom s [riverRename 998 500])
    (ceTrace_state 999 le_rfl)).trans ?_
  refine (runRelayFrom_riverRename ⟨ceRoster 999, []⟩ 998 500).trans ?_
  refine (final_step_sym (ceRoster 999) (riverName 998) hget hmem htaken hne).trans ?_
  exact congrArg (fun l => ServerState.mk l []) e5

/- ===================================================================
   C1 part A: the name-uniqueness invariant under a roster bound
   =================================================================== -/

/-- The relay invariant: connection ids are distinct (JS Map keys) and
display names are pairwise distinct case-insensitively. -/
def RInv (s : ServerState) : Prop :=
  (s.peers.map Prod.fst).Nodup ∧ namesDistinct s

/-- Mapped members of an updated association list: either an old mapped
member or the image of the new entry. -/
theorem mem_map_mapSet {α β : Type} (f : String × α → β) (m : List (String × α))
    (k : String) (v : α) (x : β) (h : x ∈ (mapSet m k v).map f) :
    x ∈ m.map f ∨ x = f (k, v) := by
  induction m with
  | nil =>
    simp only [mapSet, List.map_cons, List.map_nil, List.mem_singleton] at h
    exact Or.inr h
  | cons p rest ih =>
    simp only [mapSet] at h
    by_cases hc : p.1 = k
    · rw [if_pos hc] at h
      simp only [List.map_cons, List.mem_cons] at h
      rcases h with h | h
      · exact Or.inr h
      · left
        simp only [List.map_cons, List.mem_cons]
        exact Or.inr h
    · rw [if_neg hc] at h
      simp only [List.map_cons, List.mem_cons] at h
      rcases h with h | h
      · left
        simp only [List.map_cons, List.mem_cons]
        exact Or.inl h
      · rcases ih h with h2 | h2
        · left
          simp only [List.map_cons, List.mem_cons]
          exact Or.inr h2
        · exact Or.inr h2

/-- Updating one entry with a name no other entry shares keeps the
lowercased names distinct. -/
theorem lowers_mapSet_nodup (peers : List (String × JStr)) (k : String) (v : JStr)
    (hkeys : (peers.map Prod.fst).Nodup)
    (hvals : (peers.map (fun p => toLowerCase p.2)).Nodup)
    (hfree : ∀ p ∈ peers, p.1 ≠ k → toLowerCase p.2 ≠ toLowerCase v) :
    ((mapSet peers k v).map (fun p => toLowerCase p.2)).Nodup := by
  induction peers with
  | nil => simp [mapSet]
  | cons p rest ih =>
    simp only [List.map_cons, List.nodup_cons] at hkeys hvals
    by_cases hc : p.1 = k
    · simp only [mapSet]
      rw [if_pos hc]
      simp only [List.map_cons, List.nodup_cons]
      refine ⟨?_, hvals.2⟩
      intro hmem
      rw [List.mem_map] at hmem
      obtain ⟨q, hq, heq⟩ := hmem
      have hqk : q.1 ≠ k := by
        intro hqk
        exact hkeys.1 (List.mem_map.mpr ⟨q, hq, by rw [hqk, ← hc]⟩)
      exact hfree q (List.mem_cons_of_mem _ hq) hqk heq
    · simp only [mapSet]
      rw [if_neg hc]
      simp only [List.map_cons, List.nodup_cons]
      refine ⟨?_, ih hkeys.2 hvals.2
        (fun q hq hqk => hfree q (List.mem_cons_of_mem _ hq) hqk)⟩
      intro hmem
      rcases mem_map_mapSet (fun r => toLowerCase r.2) rest k v _ hmem with h2 | h2
      · exact hvals.1 h2
      · exact hfree p (List.mem_cons_self _ _) hc h2

/-- A freshly allocated unique name keeps the invariant when written into
the roster. -/
theorem RInv_onConnect (s : ServerState) (id : String) (g : Nat × Nat) (clock : Nat)
    (hinv : RInv s) (hlen : s.peers.length ≤ 998) :
    RInv (onConnect s id g clock).1 := by
  have hfree := (isNameTaken_eq_false_iff _ _ _).mp (allocate_free s.peers none g clock hlen)
  constructor
  · show ((mapSet s.peers id _).map Prod.fst).Nodup
    exact mapSet_keys_nodup _ _ _ hinv.1
  · show ((mapSet s.peers id _).map (fun p => toLowerCase p.2)).Nodup
    exact lowers_mapSet_nodup _ _ _ hinv.1 hinv.2 (fun p hp _ => hfree p hp rfl)

/-- The re-disambiguated rename target is free among all other peers. -/
theorem renameUnique_free (s : ServerState) (sender : String) (proposed : JStr)
    (g2 : Nat × Nat) (clock : Nat) (hlen : s.peers.length ≤ 998) :
    ∀ p ∈ s.peers, p.1 ≠ sender →
      toLowerCase p.2 ≠ toLowerCase (renameUnique s sender proposed g2 clock) := by
  intro p hp hps
  simp only [renameUnique]
  by_cases ht : isNameTaken s.peers proposed (some sender) = true
  · rw [if_pos ht]
    have := (isNameTaken_eq_false_iff _ _ _).mp
      (allocate_free s.peers (some proposed) g2 clock hlen)
    exact this p hp rfl
  · rw [if_neg ht]
    have hfalse : isNameTaken s.peers proposed (some sender) = false :=
      Bool.eq_false_iff.mpr ht
    have := (isNameTaken_eq_false_iff _ _ _).mp hfalse
    refine this p hp ?_
    show (p.1 != sender) = true
    exact bne_iff_ne.mpr hps

/-- Forwarding never changes the state. -/
theorem fwdTo_fst (s : ServerState) (dst : String) (m : CMsg) (sender : String) :
    (fwdTo s dst m sender).1 = s := by
  rcases hm : mapGet s.peers dst with _ | v <;> simp [fwdTo, hm]

/-- The rename branch when the disambiguated name equals the current one:
no state change. -/
theorem onMessage_rename_noop (s : ServerState) (sender : String) (raw : JStr)
    (g g2 : Nat × Nat) (clock : Nat) (current : JStr)
    (hget : mapGet s.peers sender = some current)
    (heq : renameUnique s sender (sanitizeName g raw) g2 clock = current) :
    (onMessage s sender (some (CMsg.renameRequest raw)) g g2 clock).1 = s := by
  simp only [onMessage]
  rw [hget]
  simp [heq]

/-- Every message handler preserves the invariant under the roster
bound. -/
theorem RInv_onMessage (s : ServerState) (sender : String) (msg : Option CMsg)
    (g g2 : Nat × Nat) (clock : Nat) (hinv : RInv s) (hlen : s.peers.length ≤ 998) :
    RInv (onMessage s sender msg g g2 clock).1 := by
  match msg with
  | none => exact hinv
  | some (CMsg.offer a b c) =>
    simp only [onMessage]
    rw [fwdTo_fst]
    exact hinv
  | some (CMsg.answer a b c) =>
    simp only [onMessage]
    rw [fwdTo_fst]
    exact hinv
  | some (CMsg.iceCandidate a b c) =>
    simp only [onMessage]
    rw [fwdTo_fst]
    exact hinv
  | some (CMsg.muteStatus a b) => exact hinv
  | some (CMsg.cameraStatus a) => exact hinv
  | some CMsg.screenStart => exact hinv
  | some CMsg.screenStop => exact hinv
  | some (CMsg.screenSubscribe a b) =>
    simp only [onMessage]
    rw [fwdTo_fst]
    exact hinv
  | some (CMsg.screenUnsubscribe a b) =>
    simp only [onMessage]
    rw [fwdTo_fst]
    exact hinv
  | some (CMsg.screenOffer a b c) =>
    simp only [onMessage]
    rw [fwdTo_fst]
    exact hinv
  | some (CMsg.screenAnswer a b c) =>
    simp only [onMessage]
    rw [fwdTo_fst]
    exact hinv
  | some (CMsg.screenIce a b c) =>
    simp only [onMessage]
    rw [fwdTo_fst]
    exact hinv
  | some (CMsg.renameRequest raw) =>
    rcases hm : mapGet s.peers sender with _ | current
    · simp only [onMessage]
      rw [hm]
      exact hinv
    · by_cases hu : renameUnique s sender (sanitizeName g raw) g2 clock = current
      · rw [onMessage_rename_noop s sender raw g g2 clock current hm hu]
        exact hinv
      · rw [onMessage_rename_set s sender raw g g2 clock current hm hu]
        constructor
        · show ((mapSet s.peers sender _).map Prod.fst).Nodup
          exact mapSet_keys_nodup _ _ _ hinv.1
        · show ((mapSet s.peers sender _).map (fun p => toLowerCase p.2)).Nodup
          exact lowers_mapSet_nodup _ _ _ hinv.1 hinv.2
            (renameUnique_free s sender (sanitizeName g raw) g2 clock hlen)
  | some CMsg.unhandled => exact hinv

/-- Dropping a peer preserves the invariant. -/
theorem RInv_onClose (s : ServerState) (id : String) (hinv : RInv s) :
    RInv (onClose s id).1 := by
  have hpeers : (onClose s id).1.peers = mapDel s.peers id := by
    simp only [onClose]
    by_cases hc : s.screenSharers.contains id = true
    · rw [if_pos hc]
    · rw [if_neg hc]
  constructor
  · rw [hpeers]
    exact mapDel_keys_nodup _ _ hinv.1
  · show ((onClose s id).1.peers.map (fun p => toLowerCase p.2)).Nodup
    rw [hpeers]
    exact hinv.2.sublist (List.Sublist.map _ (List.filter_sublist _))

/-- One relay step preserves the invariant under the roster bound. -/
theorem RInv_relayStep (s : ServerState) (e : REvent) (hinv : RInv s)
    (hlen : s.peers.length ≤ 998) : RInv (relayStep s e).1 := by
  match e with
  | REvent.connect id g clock => exact RInv_onConnect s id g clock hinv hlen
  | REvent.message sender m g g2 clock => exact RInv_onMessage s sender m g g2 clock hinv hlen
  | REvent.close id => exact RInv_onClose s id hinv

/-- The invariant holds along any run whose roster stays within 998
peers at every prefix. -/
theorem RInv_runRelayFrom (events : List REvent) :
    ∀ (s : ServerState), RInv s →
      (∀ n, (runRelayFrom s (events.take n)).peers.length ≤ 998) →
      RInv (runRelayFrom s events) := by
  induction events with
  | nil =>
    intro s hs _
    exact hs
  | cons e es ih =>
    intro s hs hbound
    have h0 : s.peers.length ≤ 998 := hbound 0
    have hstep : RInv (relayStep s e).1 := RInv_relayStep s e hs h0
    have hb2 : ∀ n, (runRelayFrom (relayStep s e).1 (es.take n)).peers.length ≤ 998 :=
      fun n => hbound (n + 1)
    exact ih _ hstep hb2

/-- C1: counterexample to the unqualified uniqueness claim.  In a room
with 999 peers named river, river-2, ..., river-999, a further rename
request for river exhausts the suffix search (indices 2 through 999 are
all taken) and allocateUniqueName falls back to the Date.now()-derived
suffix; with Date.now() mod 1000 = 500 the renaming peer is assigned
river-500, which peer 499 already holds, so the reachable relay state
after ceFull has two peers with case-insensitively equal names. -/
theorem relay_names_unique_counterexample :
    ¬ namesDistinct (runRelay ceFull) := by
  intro h
  rw [ceFull_state] at h
  simp only [namesDistinct, lowerNames] at h
  rw [List.map_append, List.nodup_append] at h
  exact h.2.2
    (List.mem_map.mpr ⟨(ceId 499, riverName 499), mem_ceRoster 499 998 (by omega), rfl⟩)
    (List.mem_map.mpr ⟨(ceId 998, riverName 499), List.mem_singleton.mpr rfl, rfl⟩)

/-- C1 (amended): as long as the room never holds more than 998 peers,
the display names of the concurrently connected peers are pairwise
distinct case-insensitively after every sequence of relay events:
onConnect assigns a free name via allocateUniqueName (the suffix search
over 2..999 cannot exhaust below 999 distinct names) and every
rename-request re-disambiguates against the current roster. -/
theorem relay_names_unique_bounded (events : List REvent)
    (hbound : ∀ n, (runRelay (events.take n)).peers.length ≤ 998) :
    namesDistinct (runRelay events) :=
  (RInv_runRelayFrom events initRelayState ⟨List.nodup_nil, List.nodup_nil⟩ hbound).2

/-- Witness: a concrete two-connect room satisfies the bound and gets
distinct names. -/
theorem relay_names_unique_bounded_witness :
    namesDistinct (runRelay [REvent.connect "a" (0, 0) 0, REvent.connect "b" (0, 0) 0]) := by
  refine relay_names_unique_bounded _ ?_
  intro n
  match n with
  | 0 => decide
  | 1 => decide
  | n + 2 =>
    rw [List.take_of_length_le (by simp only [List.length_cons, List.length_nil]; omega)]
    decide
